import Mathlib

/-!
# go-multicodec: the `gen.go` code generator

A verification development for `gen.go`, the program that turns the multicodec
CSV table into the Go constant table `code_table.go`.

## Modelling conventions

* A Go `string` is an arbitrary sequence of bytes; it is modelled as a list of
  natural numbers (`GoString`), each element standing for one byte.  No theorem
  below assumes that the elements are below 256, so every statement holds in
  particular for every real byte string, well-formed UTF-8 or not.
* A Go `rune` is modelled as a natural number (only non-negative runes occur
  in this program).
* The functions of the Go standard library that `gen.go` calls
  (`utf8.DecodeRuneInString`, `utf8.DecodeLastRuneInString`, `strings.Builder`,
  `strings.Split`, `strings.Contains`, `strings.TrimSpace`, `unicode.IsNumber`,
  `unicode.ToUpper`, `unicode.IsSpace`, `encoding/csv`, `text/template`) are
  modelled from their documented behaviour.  Shifts and masks on bytes are
  written with division and remainder.
* The large Unicode tables are not part of the repository.  `unicode.IsNumber`
  is concrete on Latin-1 and `unicode.ToUpper` is concrete on ASCII (the fast
  paths of the library); beyond, they read the tables passed as a parameter
  (`UnicodeTables`), of which only two facts about U+FFFD are assumed.  Every
  theorem holds for every choice of the tables.  `unicode.IsSpace` is concrete.
* A run of `main` is modelled from the records that `csv.Reader` splits the
  response body into; the result tells how the run ends and what it wrote to
  `code_table.go`.  Failing writes to the created file are not modelled.
-/

namespace GoMulticodec

/-! ## Strings, runes and UTF-8 -/

/-- A Go string: a sequence of bytes. -/
abbrev GoString := List Nat

/-- The constant `utf8.RuneError`, U+FFFD. -/
def RuneError : Nat := 0xFFFD

/-- The constant `utf8.RuneSelf`: bytes below it are single-byte runes. -/
def RuneSelf : Nat := 0x80

/-- The constant `utf8.UTFMax`: the longest encoding of a rune, in bytes. -/
def UTFMax : Nat := 4

/-- The constant `unicode.MaxRune`. -/
def MaxRune : Nat := 0x10FFFF

/-- The function `utf8.EncodeRune` (also `strings.Builder.WriteRune`): the
UTF-8 encoding of a rune; surrogates and values above `MaxRune` are encoded
as `RuneError`. -/
def encodeRune (r : Nat) : GoString :=
  if r ≤ 0x7F then [r]
  else if r ≤ 0x7FF then [0xC0 + r / 64, 0x80 + r % 64]
  else if MaxRune < r ∨ (0xD800 ≤ r ∧ r ≤ 0xDFFF) then [0xEF, 0xBF, 0xBD]
  else if r ≤ 0xFFFF then [0xE0 + r / 4096, 0x80 + r / 64 % 64, 0x80 + r % 64]
  else [0xF0 + r / 262144, 0x80 + r / 4096 % 64, 0x80 + r / 64 % 64, 0x80 + r % 64]

/-- The bytes of a text given as a sequence of Unicode characters: its UTF-8
encoding.  Used to write byte strings readably. -/
def goString (s : String) : GoString :=
  s.toList.flatMap fun c => encodeRune c.toNat

/-- The table `first` of package `utf8` for a leading byte `b ≥ 0xC2`:
the size of the sequence and the accepted range of the second byte;
`none` for a byte that cannot start a multi-byte sequence. -/
def leadInfo (b : Nat) : Option (Nat × Nat × Nat) :=
  if 0xC2 ≤ b ∧ b ≤ 0xDF then some (2, 0x80, 0xBF)
  else if b = 0xE0 then some (3, 0xA0, 0xBF)
  else if 0xE1 ≤ b ∧ b ≤ 0xEC then some (3, 0x80, 0xBF)
  else if b = 0xED then some (3, 0x80, 0x9F)
  else if 0xEE ≤ b ∧ b ≤ 0xEF then some (3, 0x80, 0xBF)
  else if b = 0xF0 then some (4, 0x90, 0xBF)
  else if 0xF1 ≤ b ∧ b ≤ 0xF3 then some (4, 0x80, 0xBF)
  else if b = 0xF4 then some (4, 0x80, 0x8F)
  else none

/-- A continuation byte, `0x80 ≤ b ≤ 0xBF`. -/
def isCont (b : Nat) : Bool := decide (0x80 ≤ b ∧ b ≤ 0xBF)

/-- The function `utf8.DecodeRuneInString`: the first rune of `s` and its
width in bytes.  The empty string gives `(RuneError, 0)`, an invalid or
incomplete encoding gives `(RuneError, 1)`. -/
def DecodeRuneInString (s : GoString) : Nat × Nat :=
  match s with
  | [] => (RuneError, 0)
  | s0 :: rest =>
    if s0 < RuneSelf then (s0, 1)
    else
      match leadInfo s0 with
      | none => (RuneError, 1)
      | some (sz, lo, hi) =>
        if s.length < sz then (RuneError, 1)
        else
          match rest with
          | [] => (RuneError, 1)
          | s1 :: rest1 =>
            if s1 < lo ∨ hi < s1 then (RuneError, 1)
            else if sz ≤ 2 then (s0 % 32 * 64 + s1 % 64, 2)
            else
              match rest1 with
              | [] => (RuneError, 1)
              | s2 :: rest2 =>
                if !isCont s2 then (RuneError, 1)
                else if sz ≤ 3 then (s0 % 16 * 4096 + s1 % 64 * 64 + s2 % 64, 3)
                else
                  match rest2 with
                  | [] => (RuneError, 1)
                  | s3 :: _ =>
                    if !isCont s3 then (RuneError, 1)
                    else (s0 % 8 * 262144 + s1 % 64 * 4096 + s2 % 64 * 64 + s3 % 64, 4)

/-- The function `utf8.RuneStart`: the byte is not a continuation byte. -/
def RuneStart (b : Nat) : Bool := !isCont b

/-- The backwards scan of `utf8.DecodeLastRuneInString`:
`for start--; start >= lim; start-- { if RuneStart(s[start]) { break } }`,
entered with `start` already decremented.  The scan inspects at most
`UTFMax - 1` bytes, so a budget of `UTFMax` steps is never exhausted. -/
def scanBack (s : GoString) (lim : Int) : Nat → Int → Int
  | 0, start => start
  | budget + 1, start =>
    if start ≥ lim then
      if RuneStart (s.getD start.toNat 0) then start
      else scanBack s lim budget (start - 1)
    else start

/-- The function `utf8.DecodeLastRuneInString`: the last rune of `s` and its
width in bytes.  The empty string gives `(RuneError, 0)`, an invalid encoding
gives `(RuneError, 1)`. -/
def DecodeLastRuneInString (s : GoString) : Nat × Nat :=
  let n := s.length
  if n = 0 then (RuneError, 0)
  else
    let r := s.getD (n - 1) 0
    if r < RuneSelf then (r, 1)
    else
      let lim : Int := max ((n : Int) - UTFMax) 0
      let start := scanBack s lim UTFMax ((n : Int) - 2)
      let start := (if start < 0 then 0 else start).toNat
      let (r, size) := DecodeRuneInString (s.drop start)
      if start + size ≠ n then (RuneError, 1) else (r, size)

/-! ## Package `unicode` -/

/-- The parts of the Unicode tables of the Go library that lie outside the
fast paths: membership in category N above Latin-1, and the upper-case mapping
above ASCII.  Two facts about the replacement character U+FFFD are recorded:
it is no number and it has no upper-case mapping. -/
structure UnicodeTables where
  /-- Membership in the range table `unicode.Number` for runes above U+00FF. -/
  numberAbove : Nat → Bool
  /-- The mapping `unicode.To(unicode.UpperCase, r)` for runes above U+007F. -/
  upperAbove : Nat → Nat
  /-- U+FFFD is in category So, not in category N. -/
  number_RuneError : numberAbove 0xFFFD = false
  /-- U+FFFD has no case mapping. -/
  upper_RuneError : upperAbove 0xFFFD = 0xFFFD

/-- The function `unicode.IsNumber`: the rune is in category N.  On Latin-1 the
numbers are the ASCII digits, the superscripts `²` `³` `¹` and the fractions
`¼` `½` `¾`. -/
def IsNumber (U : UnicodeTables) (r : Nat) : Bool :=
  if r ≤ 0xFF then
    decide ((0x30 ≤ r ∧ r ≤ 0x39) ∨ r = 0xB2 ∨ r = 0xB3 ∨ r = 0xB9 ∨ (0xBC ≤ r ∧ r ≤ 0xBE))
  else U.numberAbove r

/-- The function `unicode.ToUpper`. -/
def ToUpper (U : UnicodeTables) (r : Nat) : Nat :=
  if r ≤ 0x7F then
    if 0x61 ≤ r ∧ r ≤ 0x7A then r - 0x20 else r
  else U.upperAbove r

/-- The function `unicode.IsSpace`: the rune has the property White_Space. -/
def IsSpace (r : Nat) : Bool :=
  if r ≤ 0xFF then
    decide ((0x09 ≤ r ∧ r ≤ 0x0D) ∨ r = 0x20 ∨ r = 0x85 ∨ r = 0xA0)
  else
    decide (r = 0x1680 ∨ (0x2000 ≤ r ∧ r ≤ 0x200A) ∨ r = 0x2028 ∨ r = 0x2029
      ∨ r = 0x202F ∨ r = 0x205F ∨ r = 0x3000)

/-! ## Package `strings` -/

/-- The call `strings.Split(s, "-")` with the one-byte separator `sep`: the
pieces of `s` between the separators, in order; always at least one piece. -/
def Split (sep : Nat) : GoString → List GoString
  | [] => [[]]
  | b :: rest =>
    if b = sep then [] :: Split sep rest
    else
      match Split sep rest with
      | [] => [[b]]
      | p :: ps => (b :: p) :: ps

/-- Whether `p` is an initial segment of `s` (`strings.HasPrefix`). -/
def startsWith : GoString → GoString → Bool
  | _, [] => true
  | [], _ :: _ => false
  | b :: s, c :: p => b == c && startsWith s p

/-- The function `strings.Contains`: `substr` occurs in `s` at some offset. -/
def Contains : GoString → GoString → Bool
  | [], substr => startsWith [] substr
  | b :: s, substr => startsWith (b :: s) substr || Contains s substr

/-! ## The table entry -/

/-- The type `tableEntry` of `gen.go`. -/
structure tableEntry where
  Name : GoString
  Tag : GoString
  Code : GoString
  Status : GoString
  Description : GoString
deriving DecidableEq, Repr

/-- The method `tableEntry.IsDeprecated`. -/
def tableEntry.IsDeprecated (c : tableEntry) : Bool :=
  Contains c.Description (goString "deprecated")

/-- The state of the loop of `VarName`: the builder `b` and the rune `last`. -/
structure VarState where
  b : GoString
  last : Nat
deriving DecidableEq, Repr

/-- One iteration of the loop of `tableEntry.VarName`, for the piece `part`. -/
def varNameStep (U : UnicodeTables) (st : VarState) (part : GoString) : VarState :=
  let (first, firstSize) := DecodeRuneInString part
  let b := if IsNumber U st.last && IsNumber U first then st.b ++ [0x5F] else st.b
  let b := b ++ encodeRune (ToUpper U first)
  let b := b ++ part.drop firstSize
  { b := b, last := (DecodeLastRuneInString part).1 }

/-- The method `tableEntry.VarName`: the loop over the pieces of `Name`,
started with an empty builder and `last = 0`. -/
def tableEntry.VarName (U : UnicodeTables) (c : tableEntry) : GoString :=
  ((Split 0x2D c.Name).foldl (varNameStep U) { b := [], last := 0 }).b

/-! ## White space trimming -/

/-- The function `strings.TrimLeftFunc(s, unicode.IsSpace)`: runes are decoded
from the front and dropped while they are white space.  Every step drops at
least one byte, so a budget of `len(s)` steps is never exhausted. -/
def trimLeftSpace : Nat → GoString → GoString
  | 0, s => s
  | budget + 1, s =>
    match s with
    | [] => []
    | _ :: _ =>
      let (r, size) := DecodeRuneInString s
      if IsSpace r then trimLeftSpace budget (s.drop size) else s

/-- The function `strings.TrimRightFunc(s, unicode.IsSpace)`: runes are decoded
from the back and dropped while they are white space. -/
def trimRightSpace : Nat → GoString → GoString
  | 0, s => s
  | budget + 1, s =>
    match s with
    | [] => []
    | _ :: _ =>
      let (r, size) := DecodeLastRuneInString s
      if IsSpace r then trimRightSpace budget (s.take (s.length - size)) else s

/-- The function `strings.TrimSpace`: `s` without its leading and trailing
white space, as defined by Unicode.  (The library first scans ASCII bytes on a
fast path; the result is the one of trimming rune by rune.) -/
def TrimSpace (s : GoString) : GoString :=
  let t := trimLeftSpace s.length s
  trimRightSpace t.length t

/-! ## The template -/

/-- A field of the entry that the template reads. -/
inductive Field where
  | Name | Tag | Code | Status | Description
deriving DecidableEq, Repr

/-- A pipeline of the template, evaluated with the entry as dot. -/
inductive Pipeline where
  | field (f : Field)
  | IsDeprecated
  | VarName
deriving DecidableEq, Repr

/-- A value a pipeline evaluates to. -/
inductive Value where
  | str (s : GoString)
  | bool (b : Bool)
deriving DecidableEq, Repr

/-- Truth of a value in `if`: a string is true when it is not empty. -/
def Value.truth : Value → Bool
  | .str s => !s.isEmpty
  | .bool b => b

/-- The text an action prints for a value: a string is printed as it is. -/
def Value.print : Value → GoString
  | .str s => s
  | .bool b => goString (if b then "true" else "false")

/-- A node inside an `if` of the template: literal text or an action. -/
inductive Inline where
  | text (s : String)
  | action (p : Pipeline)
deriving DecidableEq, Repr

/-- A node of the body of `range`. -/
inductive Node where
  | inline (i : Inline)
  | cond (p : Pipeline) (body : List Inline)
deriving Repr

/-- A top-level node of the template, where dot is the slice of entries. -/
inductive Top where
  | text (s : String)
  | range (body : List Node)
deriving Repr

/-- The body of `range` in `codeTemplate`: source lines 23 to 26, from the
line break after `range .` to the line break before `end`. -/
def rangeBody : List Node :=
  [ .inline (.text "\n// "),
    .cond .IsDeprecated [.text "Deprecated: "],
    .inline (.action .VarName),
    .inline (.text " is a "),
    .inline (.action (.field .Status)),
    .inline (.text " code tagged \""),
    .inline (.action (.field .Tag)),
    .inline (.text "\""),
    .cond (.field .Description)
      [.text " and described by: ", .action (.field .Description)],
    .inline (.text ".\n"),
    .inline (.action .VarName),
    .inline (.text " Code = "),
    .inline (.action (.field .Code)),
    .inline (.text " // "),
    .inline (.action (.field .Name)),
    .inline (.text "\n") ]

/-- The constant `codeTemplate` as parsed by `text/template`. -/
def codeTemplate : List Top :=
  [ .text "\n// Code generated by gen.go; DO NOT EDIT.\n\npackage multicodec\n\nconst (",
    .range rangeBody,
    .text ")\n" ]

/-- Reading a field of an entry. -/
def Field.get (c : tableEntry) : Field → GoString
  | .Name => c.Name
  | .Tag => c.Tag
  | .Code => c.Code
  | .Status => c.Status
  | .Description => c.Description

/-- Evaluation of a pipeline with the entry `c` as dot. -/
def Pipeline.eval (U : UnicodeTables) (c : tableEntry) : Pipeline → Value
  | .field f => .str (f.get c)
  | .IsDeprecated => .bool c.IsDeprecated
  | .VarName => .str (c.VarName U)

/-- Execution of a text or action node. -/
def Inline.exec (U : UnicodeTables) (c : tableEntry) : Inline → GoString
  | .text s => goString s
  | .action p => (p.eval U c).print

/-- Execution of a node of the body of `range` for one entry. -/
def Node.exec (U : UnicodeTables) (c : tableEntry) : Node → GoString
  | .inline i => i.exec U c
  | .cond p body =>
    if (p.eval U c).truth then body.flatMap (Inline.exec U c) else []

/-- Execution of a top-level node: `range` executes its body once for each
entry, in the order of the slice. -/
def Top.exec (U : UnicodeTables) (entries : List tableEntry) : Top → GoString
  | .text s => goString s
  | .range body => entries.flatMap fun c => body.flatMap (Node.exec U c)

/-- The call `tmpl.Execute(out, entries)`: the text written to `out`. -/
def Execute (U : UnicodeTables) (tmpl : List Top) (entries : List tableEntry) : GoString :=
  tmpl.flatMap (Top.exec U entries)

/-! ## The CSV reader and `main` -/

/-- One record of the input as `csv.Reader` splits it into fields, before the
check of the number of fields; `syntaxError` tells that the reader reports a
syntax error for it (the fields read so far are still returned). -/
structure RawRecord where
  fields : List GoString
  syntaxError : Bool
deriving DecidableEq, Repr

/-- The non-nil errors of `csv.Reader.Read` other than `io.EOF`. -/
inductive ReadError where
  | syntaxError
  | ErrFieldCount
deriving DecidableEq, Repr

/-- The record part of `csv.Reader.Read`, for one record of the input, with
`FieldsPerRecord` as it stands: the record, the error, and the new value of
`FieldsPerRecord`.  A reader made by `csv.NewReader` starts with
`FieldsPerRecord = 0`; then the first record read sets it to its number of
fields, and every later record with another number of fields is returned
with `ErrFieldCount`. -/
def readRecord (FieldsPerRecord : Nat) (raw : RawRecord) :
    List GoString × Option ReadError × Nat :=
  let err : Option ReadError := if raw.syntaxError then some .syntaxError else none
  if 0 < FieldsPerRecord then
    if raw.fields.length ≠ FieldsPerRecord ∧ err = none then
      (raw.fields, some .ErrFieldCount, FieldsPerRecord)
    else (raw.fields, err, FieldsPerRecord)
  else (raw.fields, err, raw.fields.length)

/-- Lines 75 to 81 of `main`: the entry built from a record; `none` when an
index is out of range (a run-time panic). -/
def mkEntry (record : List GoString) : Option tableEntry := do
  let f0 ← record[0]?
  let f1 ← record[1]?
  let f2 ← record[2]?
  let f3 ← record[3]?
  let f4 ← record[4]?
  pure { Name := TrimSpace f0, Tag := TrimSpace f1, Code := TrimSpace f2,
         Status := TrimSpace f3, Description := TrimSpace f4 }

/-- The calls of `log.Fatal` in `main`, by the call that failed. -/
inductive Fatal where
  | get
  | read (e : ReadError)
  | create
deriving DecidableEq, Repr

/-- Why a run stops before its end: `log.Fatal`, or a run-time panic. -/
inductive Abort where
  | fatal (f : Fatal)
  | panic
deriving DecidableEq, Repr

/-- The reading loop of `main` (lines 67 to 82): `input` is what is left of
the response body, `entries` the slice built so far.  End of input breaks the
loop; an error is fatal; a record with fewer than five fields panics. -/
def readLoop (FieldsPerRecord : Nat) (input : List RawRecord) (entries : List tableEntry) :
    Except Abort (List tableEntry) :=
  match input with
  | [] => .ok entries
  | raw :: rest =>
    match readRecord FieldsPerRecord raw with
    | (_, some err, _) => .error (.fatal (.read err))
    | (record, none, fpr) =>
      match mkEntry record with
      | none => .error .panic
      | some entry => readLoop fpr rest (entries ++ [entry])

/-- Lines 64 to 82 of `main`: the header line is read and dropped, its error
ignored, then the loop reads the entries. -/
def parseTable (input : List RawRecord) : Except Abort (List tableEntry) :=
  match input with
  | [] => readLoop 0 [] []
  | header :: rest => readLoop (readRecord 0 header).2.2 rest []

/-- What a run of the program meets outside itself: the records of the body of
the response (`none` when `http.Get` fails) and whether `os.Create` succeeds. -/
structure Env where
  response : Option (List RawRecord)
  createOk : Bool

/-- How a run ends. -/
inductive Outcome where
  | done
  | aborted (a : Abort)
deriving DecidableEq, Repr

/-- The result of a run: how it ends and what it wrote to `code_table.go`;
`file = none` means that the file was never created or truncated. -/
structure Result where
  outcome : Outcome
  file : Option GoString
deriving DecidableEq, Repr

/-- The function `main`. -/
def main (U : UnicodeTables) (env : Env) : Result :=
  match env.response with
  | none => { outcome := .aborted (.fatal .get), file := none }
  | some input =>
    match parseTable input with
    | .error a => { outcome := .aborted a, file := none }
    | .ok entries =>
      if env.createOk then
        { outcome := .done, file := some (Execute U codeTemplate entries) }
      else { outcome := .aborted (.fatal .create), file := none }

/-- An entry with the given name and empty other fields. -/
def named (name : GoString) : tableEntry :=
  { Name := name, Tag := [], Code := [], Status := [], Description := [] }

/-- A well-formed record with the given fields. -/
def row (fields : List String) : RawRecord :=
  { fields := fields.map goString, syntaxError := false }

/-! ## Notions used to state the properties -/

/-- A Unicode scalar value: a rune that `utf8.EncodeRune` encodes as itself. -/
def ValidRune (r : Nat) : Prop := r ≤ MaxRune ∧ ¬ (0xD800 ≤ r ∧ r ≤ 0xDFFF)

instance : DecidablePred ValidRune := fun r => by
  unfold ValidRune; infer_instance

/-- The string is the UTF-8 encoding of a sequence of white-space characters. -/
def AllSpace (s : GoString) : Prop :=
  ∃ rs : List Nat, (∀ r ∈ rs, IsSpace r = true) ∧ s = rs.flatMap encodeRune

/-- The string begins with the encoding of a white-space character. -/
def BeginsWithSpace (s : GoString) : Prop :=
  ∃ r rest, IsSpace r = true ∧ s = encodeRune r ++ rest

/-- The string ends with the encoding of a white-space character. -/
def EndsWithSpace (s : GoString) : Prop :=
  ∃ r init, IsSpace r = true ∧ s = init ++ encodeRune r

/-- The string `t` is `s` with its leading and trailing white space stripped
and nothing else changed. -/
def IsTrimOf (s t : GoString) : Prop :=
  ∃ pre post, s = pre ++ t ++ post ∧ AllSpace pre ∧ AllSpace post
    ∧ ¬ BeginsWithSpace t ∧ ¬ EndsWithSpace t

/-- The first character of a part, as `utf8.DecodeRuneInString` reads it; an
empty part has none. -/
def firstChar? (part : GoString) : Option Nat :=
  match part with
  | [] => none
  | _ :: _ => some (DecodeRuneInString part).1

/-- The last character of a part, as `utf8.DecodeLastRuneInString` reads it;
an empty part has none. -/
def lastChar? (part : GoString) : Option Nat :=
  match part with
  | [] => none
  | _ :: _ => some (DecodeLastRuneInString part).1

/-- A part with its first character upper-cased and its remainder unchanged. -/
def capitalize (U : UnicodeTables) (part : GoString) : GoString :=
  match part with
  | [] => []
  | _ :: _ =>
    encodeRune (ToUpper U (DecodeRuneInString part).1) ++ part.drop (DecodeRuneInString part).2

/-- Whether an underscore goes between two consecutive parts: the last
character of `prev` and the first character of `cur` are both `digit`s. -/
def needsUnderscore (digit : Nat → Bool) (prev cur : GoString) : Bool :=
  match lastChar? prev, firstChar? cur with
  | some a, some b => digit a && digit b
  | _, _ => false

/-- The capitalized parts concatenated in order, with a single underscore
between two parts exactly when `needsUnderscore` holds of them. -/
def joinParts (digit : Nat → Bool) (U : UnicodeTables) : List GoString → GoString
  | [] => []
  | [p] => capitalize U p
  | p :: q :: rest =>
    capitalize U p ++ (if needsUnderscore digit p q then [0x5F] else [])
      ++ joinParts digit U (q :: rest)

/-- The derived name as the specification words it: split on the hyphen,
capitalize each part, join with the digit rule. -/
def derivedName (digit : Nat → Bool) (U : UnicodeTables) (name : GoString) : GoString :=
  joinParts digit U (Split 0x2D name)

/-- A decimal digit `0` to `9`. -/
def isDecimalDigit (r : Nat) : Bool := decide (0x30 ≤ r ∧ r ≤ 0x39)

/-- What the loop of `VarName` appends to the builder for the remaining
pieces, when the variable `last` holds `last`. -/
def loopOutput (U : UnicodeTables) : Nat → List GoString → GoString
  | _, [] => []
  | last, p :: ps =>
    (if IsNumber U last && IsNumber U (DecodeRuneInString p).1 then [0x5F] else [])
      ++ encodeRune (ToUpper U (DecodeRuneInString p).1) ++ p.drop (DecodeRuneInString p).2
      ++ loopOutput U (DecodeLastRuneInString p).1 ps

/-- The entry that a record with at least five fields stands for: its first
five fields, trimmed. -/
def entryOf (fields : List GoString) : tableEntry :=
  { Name := TrimSpace (fields.getD 0 []), Tag := TrimSpace (fields.getD 1 []),
    Code := TrimSpace (fields.getD 2 []), Status := TrimSpace (fields.getD 3 []),
    Description := TrimSpace (fields.getD 4 []) }

/-- Sample tables for concrete instances: above Latin-1 no rune is a number,
above ASCII upper-casing changes nothing. -/
def sampleTables : UnicodeTables :=
  { numberAbove := fun _ => false, upperAbove := fun r => r,
    number_RuneError := rfl, upper_RuneError := rfl }

/-- The row of the table for `sha2-256`. -/
def sampleRow1 : RawRecord :=
  row ["sha2-256", "multihash", "0x12", "permanent", "SHA-256"]

/-- The row of the table for `aes-128`, with an empty description. -/
def sampleRow2 : RawRecord :=
  row ["aes-128", "key", "0x60", "draft", ""]

/-- A row with two fields only. -/
def shortRow : RawRecord :=
  row ["aes-128", "key"]

/-- The surroundings of a run in which the response body holds the records
`input` and `code_table.go` can be created. -/
def envOf (input : List RawRecord) : Env :=
  { response := some input, createOk := true }

/-- The header line of the multicodec table. -/
def sampleHeader : RawRecord :=
  row ["name", "tag", "code", "status", "description"]

/-- The text the template renders for one entry: the body of `range`
executed with the entry as dot. -/
def renderEntry (U : UnicodeTables) (c : tableEntry) : GoString :=
  rangeBody.flatMap (Node.exec U c)

/-! ## Notions used to state the properties of derived names -/

/-- An ASCII letter, `A` to `Z` or `a` to `z`. -/
def isAsciiLetter (b : Nat) : Bool :=
  decide ((0x41 ≤ b ∧ b ≤ 0x5A) ∨ (0x61 ≤ b ∧ b ≤ 0x7A))

/-- A lower-case ASCII letter, `a` to `z`. -/
def isAsciiLower (b : Nat) : Bool := decide (0x61 ≤ b ∧ b ≤ 0x7A)

/-- An ASCII letter or a decimal digit. -/
def isAlnum (b : Nat) : Bool := isAsciiLetter b || isDecimalDigit b

/-- A lower-case ASCII letter or a decimal digit. -/
def isLowerAlnum (b : Nat) : Bool := isAsciiLower b || isDecimalDigit b

/-- A byte allowed in an identifier: an ASCII letter, a decimal digit or an
underscore. -/
def isIdentByte (b : Nat) : Bool := isAlnum b || decide (b = 0x5F)

/-- The name is a sequence of non-empty parts, each made only of bytes that
satisfy `ok`, separated by single hyphens. -/
def PartsOf (ok : Nat → Bool) (name : GoString) : Prop :=
  ∀ p ∈ Split 0x2D name, p ≠ [] ∧ ∀ b ∈ p, ok b = true

instance (ok : Nat → Bool) : DecidablePred (PartsOf ok) := fun name => by
  unfold PartsOf; infer_instance

/-- A hyphen becomes an underscore, every other byte stays. -/
def hyphenToUnderscore (b : Nat) : Nat := if b = 0x2D then 0x5F else b

/-- The parts joined with the byte `sep` between two consecutive parts. -/
def joinWith (sep : Nat) : List GoString → GoString
  | [] => []
  | [p] => p
  | p :: q :: rest => p ++ sep :: joinWith sep (q :: rest)

/-- The slice expression `s[i:]`; `none` stands for the run-time panic
"slice bounds out of range", raised when `i > len(s)`. -/
def sliceFrom (s : GoString) (i : Nat) : Option GoString :=
  if i ≤ s.length then some (s.drop i) else none

/-- One iteration of the loop of `tableEntry.VarName` with the bounds of the
slice `part[firstSize:]` checked. -/
def varNameStep? (U : UnicodeTables) (st : VarState) (part : GoString) : Option VarState :=
  let (first, firstSize) := DecodeRuneInString part
  let b := if IsNumber U st.last && IsNumber U first then st.b ++ [0x5F] else st.b
  let b := b ++ encodeRune (ToUpper U first)
  match sliceFrom part firstSize with
  | none => none
  | some tail => some { b := b ++ tail, last := (DecodeLastRuneInString part).1 }

/-- The loop of `tableEntry.VarName` with checked slices, over the remaining
pieces; `none` when an iteration panics. -/
def varNameLoop? (U : UnicodeTables) : VarState → List GoString → Option VarState
  | st, [] => some st
  | st, part :: rest =>
    match varNameStep? U st part with
    | none => none
    | some st1 => varNameLoop? U st1 rest

/-- The method `tableEntry.VarName` with checked slices; `none` when the run
panics. -/
def tableEntry.VarName? (U : UnicodeTables) (c : tableEntry) : Option GoString :=
  (varNameLoop? U { b := [], last := 0 } (Split 0x2D c.Name)).map fun st => st.b

/-- What a part contributes to the derived name: the replacement character
U+FFFD for an empty part, the capitalized part otherwise. -/
def piece (U : UnicodeTables) (part : GoString) : GoString :=
  match part with
  | [] => [0xEF, 0xBF, 0xBD]
  | _ :: _ => capitalize U part

/-- The pieces of all parts concatenated in order, with a single underscore
between two parts exactly when both are non-empty, the first ends in a number
and the second begins with a number. -/
def joinPieces (U : UnicodeTables) : List GoString → GoString
  | [] => []
  | [p] => piece U p
  | p :: q :: rest =>
    piece U p ++ (if needsUnderscore (IsNumber U) p q then [0x5F] else [])
      ++ joinPieces U (q :: rest)


/-! ## UTF-8: decoding and encoding are inverse to each other -/

theorem decode_two (s0 s1 lo hi : Nat) (rest : GoString) (h0 : ¬ s0 < RuneSelf)
    (hl : leadInfo s0 = some (2, lo, hi)) (h1 : lo ≤ s1) (h2 : s1 ≤ hi) :
    DecodeRuneInString (s0 :: s1 :: rest) = (s0 % 32 * 64 + s1 % 64, 2) := by
  unfold DecodeRuneInString
  simp only [h0, if_false, hl]
  rw [if_neg (by simp), if_neg (by omega), if_pos (le_refl 2)]

theorem decode_three (s0 s1 s2 lo hi : Nat) (rest : GoString) (h0 : ¬ s0 < RuneSelf)
    (hl : leadInfo s0 = some (3, lo, hi)) (h1 : lo ≤ s1) (h2 : s1 ≤ hi)
    (hc2 : isCont s2 = true) :
    DecodeRuneInString (s0 :: s1 :: s2 :: rest)
      = (s0 % 16 * 4096 + s1 % 64 * 64 + s2 % 64, 3) := by
  unfold DecodeRuneInString
  simp only [h0, if_false, hl]
  rw [if_neg (by simp), if_neg (by omega), if_neg (by omega)]
  simp only [hc2, Bool.not_true, Bool.false_eq_true, if_false]
  rw [if_pos (le_refl 3)]

theorem decode_four (s0 s1 s2 s3 lo hi : Nat) (rest : GoString) (h0 : ¬ s0 < RuneSelf)
    (hl : leadInfo s0 = some (4, lo, hi)) (h1 : lo ≤ s1) (h2 : s1 ≤ hi)
    (hc2 : isCont s2 = true) (hc3 : isCont s3 = true) :
    DecodeRuneInString (s0 :: s1 :: s2 :: s3 :: rest)
      = (s0 % 8 * 262144 + s1 % 64 * 4096 + s2 % 64 * 64 + s3 % 64, 4) := by
  unfold DecodeRuneInString
  simp only [h0, if_false, hl]
  rw [if_neg (by simp), if_neg (by omega), if_neg (by omega)]
  simp only [hc2, hc3, Bool.not_true, Bool.false_eq_true, if_false]
  rw [if_neg (by omega)]

theorem isCont_low (x : Nat) (h : x < 64) : isCont (0x80 + x) = true := by
  unfold isCont
  exact decide_eq_true ⟨by omega, by omega⟩

theorem decode_encode (r : Nat) (hr : r ≤ MaxRune) (hs : ¬ (0xD800 ≤ r ∧ r ≤ 0xDFFF))
    (rest : GoString) :
    DecodeRuneInString (encodeRune r ++ rest) = (r, (encodeRune r).length) := by
  unfold MaxRune at hr
  unfold encodeRune
  by_cases h1 : r ≤ 0x7F
  · rw [if_pos h1]
    have : r < RuneSelf := by unfold RuneSelf; omega
    show DecodeRuneInString (r :: rest) = (r, 1)
    simp only [DecodeRuneInString, this, if_true]
  rw [if_neg h1]
  by_cases h2 : r ≤ 0x7FF
  · rw [if_pos h2]
    have hl : leadInfo (0xC0 + r / 64) = some (2, 0x80, 0xBF) := by
      unfold leadInfo; rw [if_pos (by omega)]
    have h0 : ¬ (0xC0 + r / 64 < RuneSelf) := by unfold RuneSelf; omega
    show DecodeRuneInString ((0xC0 + r / 64) :: (0x80 + r % 64) :: rest) = (r, 2)
    rw [decode_two _ _ _ _ _ h0 hl (by omega) (by omega)]
    congr 1
    omega
  rw [if_neg h2]
  have h3 : ¬ (MaxRune < r ∨ (0xD800 ≤ r ∧ r ≤ 0xDFFF)) := by unfold MaxRune; omega
  rw [if_neg h3]
  by_cases h4 : r ≤ 0xFFFF
  · rw [if_pos h4]
    have h0 : ¬ (0xE0 + r / 4096 < RuneSelf) := by unfold RuneSelf; omega
    have hl : ∃ lo hi, leadInfo (0xE0 + r / 4096) = some (3, lo, hi)
        ∧ lo ≤ 0x80 + r / 64 % 64 ∧ 0x80 + r / 64 % 64 ≤ hi := by
      by_cases q0 : r / 4096 = 0
      · exact ⟨0xA0, 0xBF, by rw [q0]; rfl, by omega, by omega⟩
      by_cases q13 : r / 4096 = 13
      · exact ⟨0x80, 0x9F, by rw [q13]; rfl, by omega, by omega⟩
      by_cases q12 : r / 4096 ≤ 12
      · refine ⟨0x80, 0xBF, ?_, by omega, by omega⟩
        unfold leadInfo
        rw [if_neg (by omega), if_neg (by omega), if_pos (by omega)]
      · refine ⟨0x80, 0xBF, ?_, by omega, by omega⟩
        unfold leadInfo
        rw [if_neg (by omega), if_neg (by omega), if_neg (by omega), if_neg (by omega),
          if_pos (by omega)]
    obtain ⟨lo, hi, hl, hlo, hhi⟩ := hl
    show DecodeRuneInString
      ((0xE0 + r / 4096) :: (0x80 + r / 64 % 64) :: (0x80 + r % 64) :: rest) = (r, 3)
    rw [decode_three _ _ _ _ _ _ h0 hl hlo hhi (isCont_low _ (by omega))]
    congr 1
    omega
  · rw [if_neg h4]
    have h0 : ¬ (0xF0 + r / 262144 < RuneSelf) := by unfold RuneSelf; omega
    have hl : ∃ lo hi, leadInfo (0xF0 + r / 262144) = some (4, lo, hi)
        ∧ lo ≤ 0x80 + r / 4096 % 64 ∧ 0x80 + r / 4096 % 64 ≤ hi := by
      have hq : r / 262144 = 0 ∨ r / 262144 = 1 ∨ r / 262144 = 2 ∨ r / 262144 = 3
          ∨ r / 262144 = 4 := by omega
      rcases hq with h | h | h | h | h
      · exact ⟨0x90, 0xBF, by rw [h]; rfl, by omega, by omega⟩
      · exact ⟨0x80, 0xBF, by rw [h]; rfl, by omega, by omega⟩
      · exact ⟨0x80, 0xBF, by rw [h]; rfl, by omega, by omega⟩
      · exact ⟨0x80, 0xBF, by rw [h]; rfl, by omega, by omega⟩
      · exact ⟨0x80, 0x8F, by rw [h]; rfl, by omega, by omega⟩
    obtain ⟨lo, hi, hl, hlo, hhi⟩ := hl
    show DecodeRuneInString ((0xF0 + r / 262144) :: (0x80 + r / 4096 % 64)
      :: (0x80 + r / 64 % 64) :: (0x80 + r % 64) :: rest) = (r, 4)
    rw [decode_four _ _ _ _ _ _ _ h0 hl hlo hhi (isCont_low _ (by omega))
      (isCont_low _ (by omega))]
    congr 1
    omega

theorem leadInfo_some (b sz lo hi : Nat) (h : leadInfo b = some (sz, lo, hi)) :
    (sz = 2 ∧ 0xC2 ≤ b ∧ b ≤ 0xDF ∧ lo = 0x80 ∧ hi = 0xBF)
    ∨ (sz = 3 ∧ b = 0xE0 ∧ lo = 0xA0 ∧ hi = 0xBF)
    ∨ (sz = 3 ∧ 0xE1 ≤ b ∧ b ≤ 0xEF ∧ b ≠ 0xED ∧ lo = 0x80 ∧ hi = 0xBF)
    ∨ (sz = 3 ∧ b = 0xED ∧ lo = 0x80 ∧ hi = 0x9F)
    ∨ (sz = 4 ∧ b = 0xF0 ∧ lo = 0x90 ∧ hi = 0xBF)
    ∨ (sz = 4 ∧ 0xF1 ≤ b ∧ b ≤ 0xF3 ∧ lo = 0x80 ∧ hi = 0xBF)
    ∨ (sz = 4 ∧ b = 0xF4 ∧ lo = 0x80 ∧ hi = 0x8F) := by
  unfold leadInfo at h
  split_ifs at h with h1 h2 h3 h4 h5 h6 h7 h8 <;>
    simp only [Option.some.injEq, Prod.mk.injEq] at h <;>
    obtain ⟨rfl, rfl, rfl⟩ := h
  · exact Or.inl ⟨rfl, h1.1, h1.2, rfl, rfl⟩
  · exact Or.inr (Or.inl ⟨rfl, h2, rfl, rfl⟩)
  · exact Or.inr (Or.inr (Or.inl ⟨rfl, h3.1, by omega, by omega, rfl, rfl⟩))
  · exact Or.inr (Or.inr (Or.inr (Or.inl ⟨rfl, h4, rfl, rfl⟩)))
  · exact Or.inr (Or.inr (Or.inl ⟨rfl, by omega, h5.2, by omega, rfl, rfl⟩))
  · exact Or.inr (Or.inr (Or.inr (Or.inr (Or.inl ⟨rfl, h6, rfl, rfl⟩))))
  · exact Or.inr (Or.inr (Or.inr (Or.inr (Or.inr (Or.inl ⟨rfl, h7.1, h7.2, rfl, rfl⟩)))))
  · exact Or.inr (Or.inr (Or.inr (Or.inr (Or.inr (Or.inr ⟨rfl, h8, rfl, rfl⟩)))))


theorem decode_valid (s : GoString) (r n : Nat) (h : DecodeRuneInString s = (r, n))
    (hr : r ≠ RuneError) :
    s = encodeRune r ++ s.drop n ∧ n = (encodeRune r).length ∧ ValidRune r := by
  unfold RuneError at hr
  unfold ValidRune MaxRune
  unfold DecodeRuneInString at h
  split at h
  · simp [RuneError] at h; omega
  rename_i s0 rest
  split at h
  · rename_i h0
    simp only [Prod.mk.injEq] at h
    obtain ⟨rfl, rfl⟩ := h
    unfold RuneSelf at h0
    have : s0 ≤ 0x7F := by omega
    simp only [encodeRune, if_pos this]
    refine ⟨by simp, by simp, by omega, by omega⟩
  rename_i h0
  unfold RuneSelf at h0
  split at h
  · simp [RuneError] at h; omega
  rename_i sz lo hi hl
  have hli := leadInfo_some _ _ _ _ hl
  split at h
  · simp [RuneError] at h; omega
  split at h
  · simp [RuneError] at h; omega
  rename_i rest0 s1 rest1 hlen
  split at h
  · simp [RuneError] at h; omega
  rename_i h1
  split at h
  · rename_i hsz
    simp only [Prod.mk.injEq] at h
    obtain ⟨rfl, rfl⟩ := h
    have hb : 0xC2 ≤ s0 ∧ s0 ≤ 0xDF ∧ 0x80 ≤ s1 ∧ s1 ≤ 0xBF := by omega
    have e1 : ¬ (s0 % 32 * 64 + s1 % 64 ≤ 0x7F) := by omega
    have e2 : s0 % 32 * 64 + s1 % 64 ≤ 0x7FF := by omega
    simp only [encodeRune, if_neg e1, if_pos e2]
    refine ⟨?_, by simp, by omega, by omega⟩
    simp only [List.cons_append, List.nil_append, List.drop_succ_cons, List.drop_zero,
      List.cons.injEq, and_true]
    omega
  rename_i hsz
  split at h
  · simp [RuneError] at h; omega
  rename_i rest00 s2 rest2
  split at h
  · simp [RuneError] at h; omega
  rename_i h2
  have hc2 : 0x80 ≤ s2 ∧ s2 ≤ 0xBF := by
    simpa [isCont] using h2
  split at h
  · rename_i hsz3
    simp only [Prod.mk.injEq] at h
    obtain ⟨rfl, rfl⟩ := h
    have hb : 0xE0 ≤ s0 ∧ s0 ≤ 0xEF ∧ 0x80 ≤ s1 ∧ s1 ≤ 0xBF
        ∧ (s0 = 0xE0 → 0xA0 ≤ s1) ∧ (s0 = 0xED → s1 ≤ 0x9F) := by omega
    clear hli hl hlen
    have e1 : ¬ (s0 % 16 * 4096 + s1 % 64 * 64 + s2 % 64 ≤ 0x7F) := by omega
    have e2 : ¬ (s0 % 16 * 4096 + s1 % 64 * 64 + s2 % 64 ≤ 0x7FF) := by omega
    have e4 : s0 % 16 * 4096 + s1 % 64 * 64 + s2 % 64 ≤ 0xFFFF := by omega
    have e5 : ¬ (0xD800 ≤ s0 % 16 * 4096 + s1 % 64 * 64 + s2 % 64
        ∧ s0 % 16 * 4096 + s1 % 64 * 64 + s2 % 64 ≤ 0xDFFF) := by omega
    have e3 : ¬ (MaxRune < s0 % 16 * 4096 + s1 % 64 * 64 + s2 % 64
        ∨ (0xD800 ≤ s0 % 16 * 4096 + s1 % 64 * 64 + s2 % 64
          ∧ s0 % 16 * 4096 + s1 % 64 * 64 + s2 % 64 ≤ 0xDFFF)) := by
      unfold MaxRune; omega
    simp only [encodeRune, if_neg e1, if_neg e2, if_neg e3, if_pos e4]
    refine ⟨?_, by simp, by omega, e5⟩
    simp only [List.cons_append, List.nil_append, List.drop_succ_cons, List.drop_zero,
      List.cons.injEq, and_true]
    omega
  rename_i hsz3
  split at h
  · simp [RuneError] at h; omega
  rename_i rest000 s3 rest3
  split at h
  · simp [RuneError] at h; omega
  rename_i h3
  have hc3 : 0x80 ≤ s3 ∧ s3 ≤ 0xBF := by
    simpa [isCont] using h3
  simp only [Prod.mk.injEq] at h
  obtain ⟨rfl, rfl⟩ := h
  have hb : 0xF0 ≤ s0 ∧ s0 ≤ 0xF4 ∧ 0x80 ≤ s1 ∧ s1 ≤ 0xBF
      ∧ (s0 = 0xF0 → 0x90 ≤ s1) ∧ (s0 = 0xF4 → s1 ≤ 0x8F) := by omega
  clear hli hl hlen
  have e1 : ¬ (s0 % 8 * 262144 + s1 % 64 * 4096 + s2 % 64 * 64 + s3 % 64 ≤ 0x7F) := by omega
  have e2 : ¬ (s0 % 8 * 262144 + s1 % 64 * 4096 + s2 % 64 * 64 + s3 % 64 ≤ 0x7FF) := by omega
  have e4 : ¬ (s0 % 8 * 262144 + s1 % 64 * 4096 + s2 % 64 * 64 + s3 % 64 ≤ 0xFFFF) := by omega
  have e6 : s0 % 8 * 262144 + s1 % 64 * 4096 + s2 % 64 * 64 + s3 % 64 ≤ 0x10FFFF := by omega
  have e3 : ¬ (MaxRune < s0 % 8 * 262144 + s1 % 64 * 4096 + s2 % 64 * 64 + s3 % 64
      ∨ (0xD800 ≤ s0 % 8 * 262144 + s1 % 64 * 4096 + s2 % 64 * 64 + s3 % 64
        ∧ s0 % 8 * 262144 + s1 % 64 * 4096 + s2 % 64 * 64 + s3 % 64 ≤ 0xDFFF)) := by
    unfold MaxRune; omega
  simp only [encodeRune, if_neg e1, if_neg e2, if_neg e3, if_neg e4]
  refine ⟨?_, by simp, e6, by omega⟩
  simp only [List.cons_append, List.nil_append, List.drop_succ_cons, List.drop_zero,
    List.cons.injEq, and_true]
  omega



theorem take_append_getD_last (s : GoString) (hne : s.length ≠ 0) :
    s = s.take (s.length - 1) ++ [s.getD (s.length - 1) 0] := by
  have hlt : s.length - 1 < s.length := by omega
  conv_lhs => rw [← List.take_append_drop (s.length - 1) s]
  congr 1
  rw [List.drop_eq_getElem_cons hlt]
  have : s.length - 1 + 1 = s.length := by omega
  rw [this, List.drop_length, List.getD_eq_getElem _ _ hlt]

theorem decodeLast_valid (s : GoString) (r n : Nat) (h : DecodeLastRuneInString s = (r, n))
    (hr : r ≠ RuneError) :
    s = s.take (s.length - n) ++ encodeRune r ∧ n = (encodeRune r).length ∧ ValidRune r := by
  unfold DecodeLastRuneInString at h
  simp only at h
  split at h
  · simp only [Prod.mk.injEq] at h; exact absurd h.1.symm hr
  rename_i hne
  split at h
  · rename_i hlt
    simp only [Prod.mk.injEq] at h
    obtain ⟨rfl, rfl⟩ := h
    unfold RuneSelf at hlt
    have e1 : s.getD (s.length - 1) 0 ≤ 0x7F := by omega
    simp only [encodeRune, if_pos e1]
    refine ⟨take_append_getD_last s hne, by simp, ?_⟩
    unfold ValidRune MaxRune; omega
  generalize (if scanBack s ((↑(List.length s) - ↑UTFMax) ⊔ 0) UTFMax (↑(List.length s) - 2) < 0
    then 0 else scanBack s ((↑(List.length s) - ↑UTFMax) ⊔ 0) UTFMax
      (↑(List.length s) - 2)).toNat = start at h
  split at h
  · simp only [Prod.mk.injEq] at h; exact absurd h.1.symm hr
  rename_i hsz
  simp only [ne_eq, not_not] at hsz
  simp only [Prod.mk.injEq] at h
  obtain ⟨h1, h2⟩ := h
  have hd : DecodeRuneInString (s.drop start) = (r, n) := by rw [← h1, ← h2]
  obtain ⟨e1, e2, e3⟩ := decode_valid _ _ _ hd hr
  rw [h2] at hsz
  refine ⟨?_, e2, e3⟩
  have hs : s.length - n = start := by omega
  rw [hs]
  have hnil : List.drop n (List.drop start s) = [] := by
    rw [List.drop_drop]; apply List.drop_eq_nil_of_le; omega
  rw [hnil, List.append_nil] at e1
  rw [← e1, List.take_append_drop]

theorem decode_size (s : GoString) :
    (DecodeRuneInString s).2 ≤ s.length ∧ (s ≠ [] → 1 ≤ (DecodeRuneInString s).2) := by
  unfold DecodeRuneInString
  split
  · simp
  split
  · simp
  split
  · simp
  split
  · simp
  rename_i hlen
  split
  · simp
  split
  · simp
  split
  · simp
  rename_i hsz
  split
  · simp
  split
  · simp
  split
  · simp
  rename_i hsz3
  split
  · simp
  split
  · simp
  · simp

theorem scanBack_le (s : GoString) (lim : Int) (budget : Nat) (start : Int) :
    scanBack s lim budget start ≤ start := by
  induction budget generalizing start with
  | zero => simp [scanBack]
  | succ k ih =>
    unfold scanBack
    split
    · split
      · exact le_refl _
      · exact le_trans (ih _) (by omega)
    · exact le_refl _

theorem decodeLast_size (s : GoString) :
    (DecodeLastRuneInString s).2 ≤ s.length ∧ (s ≠ [] → 1 ≤ (DecodeLastRuneInString s).2) := by
  unfold DecodeLastRuneInString
  simp only
  split
  · rename_i h
    simp [List.length_eq_zero.mp h]
  rename_i hne
  split
  · simp; omega
  have hle := scanBack_le s ((↑(List.length s) - ↑UTFMax) ⊔ 0) UTFMax (↑(List.length s) - 2)
  generalize scanBack s ((↑(List.length s) - ↑UTFMax) ⊔ 0) UTFMax (↑(List.length s) - 2) = z at hle
  have hst : (if z < 0 then 0 else z).toNat < s.length := by
    split <;> omega
  generalize (if z < 0 then 0 else z).toNat = start at hst
  have hd := (decode_size (s.drop start)).2 (by
    intro h0
    have := congrArg List.length h0
    simp at this; omega)
  split
  · simp; omega
  rename_i hsz
  simp only [ne_eq, not_not] at hsz
  simp only
  omega


theorem decodeLast_of_scan (s : GoString) (start r size : Nat)
    (hlast : ¬ s.getD (s.length - 1) 0 < RuneSelf)
    (hscan : scanBack s (max ((s.length : Int) - UTFMax) 0) UTFMax ((s.length : Int) - 2) = start)
    (hdec : DecodeRuneInString (s.drop start) = (r, size)) (hsum : start + size = s.length)
    (hne : s.length ≠ 0) :
    DecodeLastRuneInString s = (r, size) := by
  unfold DecodeLastRuneInString
  simp only
  rw [if_neg hne, if_neg hlast, hscan]
  have : (if (start : Int) < 0 then 0 else (start : Int)).toNat = start := by
    rw [if_neg (by omega)]; simp
  rw [this, hdec]
  simp [hsum]

theorem scanBack_cont (s : GoString) (lim start : Int) (budget : Nat) (i : Nat)
    (hi : start = i) (hlim : lim ≤ start) (hc : isCont (s.getD i 0) = true) :
    scanBack s lim (budget + 1) start = scanBack s lim budget (start - 1) := by
  subst hi
  conv_lhs => unfold scanBack
  rw [if_pos (ge_iff_le.mpr hlim), Int.toNat_ofNat]
  simp only [RuneStart, hc, Bool.not_true, Bool.false_eq_true, if_false]

theorem scanBack_start (s : GoString) (lim start : Int) (budget : Nat) (i : Nat)
    (hi : start = i) (hlim : lim ≤ start) (hc : isCont (s.getD i 0) = false) :
    scanBack s lim (budget + 1) start = start := by
  subst hi
  conv_lhs => unfold scanBack
  rw [if_pos (ge_iff_le.mpr hlim), Int.toNat_ofNat]
  simp only [RuneStart, hc, Bool.not_false, if_true]

theorem getD_append_at (init l : GoString) (j : Nat) :
    (init ++ l).getD (init.length + j) 0 = l.getD j 0 := by
  rw [List.getD_append_right _ _ _ _ (by omega)]
  congr 1; omega

theorem decodeLast_encode (r : Nat) (hv : ValidRune r) (init : GoString) :
    DecodeLastRuneInString (init ++ encodeRune r) = (r, (encodeRune r).length) := by
  have hdec := decode_encode r hv.1 hv.2 []
  rw [List.append_nil] at hdec
  obtain ⟨hr, hs⟩ := hv
  unfold MaxRune at hr
  unfold encodeRune at hdec ⊢
  by_cases h1 : r ≤ 0x7F
  · rw [if_pos h1]
    have : r < RuneSelf := by unfold RuneSelf; omega
    simp [DecodeLastRuneInString, this]
  rw [if_neg h1] at hdec ⊢
  by_cases h2 : r ≤ 0x7FF
  · rw [if_pos h2] at hdec ⊢
    apply decodeLast_of_scan _ init.length
    · have := getD_append_at init [192 + r / 64, 128 + r % 64] 1
      simp only [List.length_append, List.length_cons, List.length_nil]
      rw [show init.length + (0 + 1 + 1) - 1 = init.length + 1 by omega, this]
      simp [RuneSelf]
    · simp only [List.length_append, List.length_cons, List.length_nil]
      unfold UTFMax
      rw [scanBack_start _ _ _ _ init.length (by push_cast; omega) (by push_cast; omega)]
      · push_cast; omega
      · have := getD_append_at init [192 + r / 64, 128 + r % 64] 0
        rw [Nat.add_zero] at this
        rw [this]
        simp [isCont]; omega
    · rw [List.drop_left]; exact hdec
    · simp
    · simp
  rw [if_neg h2] at hdec ⊢
  have h3 : ¬ (MaxRune < r ∨ (0xD800 ≤ r ∧ r ≤ 0xDFFF)) := by unfold MaxRune; omega
  rw [if_neg h3] at hdec ⊢
  by_cases h4 : r ≤ 0xFFFF
  · rw [if_pos h4] at hdec ⊢
    have g0 := getD_append_at init [224 + r / 4096, 128 + r / 64 % 64, 128 + r % 64] 0
    have g1 := getD_append_at init [224 + r / 4096, 128 + r / 64 % 64, 128 + r % 64] 1
    have g2 := getD_append_at init [224 + r / 4096, 128 + r / 64 % 64, 128 + r % 64] 2
    rw [Nat.add_zero] at g0
    apply decodeLast_of_scan _ init.length
    · simp only [List.length_append, List.length_cons, List.length_nil]
      rw [show init.length + (0 + 1 + 1 + 1) - 1 = init.length + 2 by omega, g2]
      simp [RuneSelf]
    · simp only [List.length_append, List.length_cons, List.length_nil]
      unfold UTFMax
      rw [scanBack_cont _ _ _ _ (init.length + 1) (by push_cast; omega) (by push_cast; omega)
        (by rw [g1]; simp [isCont]; omega)]
      rw [scanBack_start _ _ _ _ init.length (by push_cast; omega) (by push_cast; omega)
        (by rw [g0]; simp [isCont]; omega)]
      push_cast; omega
    · rw [List.drop_left]; exact hdec
    · simp
    · simp
  · rw [if_neg h4] at hdec ⊢
    have g0 := getD_append_at init
      [240 + r / 262144, 128 + r / 4096 % 64, 128 + r / 64 % 64, 128 + r % 64] 0
    have g1 := getD_append_at init
      [240 + r / 262144, 128 + r / 4096 % 64, 128 + r / 64 % 64, 128 + r % 64] 1
    have g2 := getD_append_at init
      [240 + r / 262144, 128 + r / 4096 % 64, 128 + r / 64 % 64, 128 + r % 64] 2
    have g3 := getD_append_at init
      [240 + r / 262144, 128 + r / 4096 % 64, 128 + r / 64 % 64, 128 + r % 64] 3
    rw [Nat.add_zero] at g0
    apply decodeLast_of_scan _ init.length
    · simp only [List.length_append, List.length_cons, List.length_nil]
      rw [show init.length + (0 + 1 + 1 + 1 + 1) - 1 = init.length + 3 by omega, g3]
      simp [RuneSelf]
    · simp only [List.length_append, List.length_cons, List.length_nil]
      unfold UTFMax
      rw [scanBack_cont _ _ _ _ (init.length + 2) (by push_cast; omega) (by push_cast; omega)
        (by rw [g2]; simp [isCont]; omega)]
      rw [scanBack_cont _ _ _ _ (init.length + 1) (by push_cast; omega) (by push_cast; omega)
        (by rw [g1]; simp [isCont]; omega)]
      rw [scanBack_start _ _ _ _ init.length (by push_cast; omega) (by push_cast; omega)
        (by rw [g0]; simp [isCont]; omega)]
      push_cast; omega
    · rw [List.drop_left]; exact hdec
    · simp
    · simp


/-! ## White space trimming -/

theorem isSpace_valid (r : Nat) (h : IsSpace r = true) : ValidRune r ∧ r ≠ RuneError := by
  unfold IsSpace at h
  unfold ValidRune MaxRune RuneError
  split at h
  · omega
  · simp only [decide_eq_true_eq] at h
    omega

theorem allSpace_nil : AllSpace [] := ⟨[], by simp, by simp⟩

theorem allSpace_cons (r : Nat) (s : GoString) (hr : IsSpace r = true) (hs : AllSpace s) :
    AllSpace (encodeRune r ++ s) := by
  obtain ⟨rs, h1, h2⟩ := hs
  refine ⟨r :: rs, ?_, by simp [h2]⟩
  intro x hx
  rcases List.mem_cons.mp hx with rfl | hx
  · exact hr
  · exact h1 x hx

theorem allSpace_snoc (r : Nat) (s : GoString) (hr : IsSpace r = true) (hs : AllSpace s) :
    AllSpace (s ++ encodeRune r) := by
  obtain ⟨rs, h1, h2⟩ := hs
  refine ⟨rs ++ [r], ?_, by simp [h2]⟩
  intro x hx
  rcases List.mem_append.mp hx with hx | hx
  · exact h1 x hx
  · rw [List.mem_singleton.mp hx]; exact hr

theorem trimLeftSpace_spec (budget : Nat) (s : GoString) (h : s.length ≤ budget) :
    ∃ pre, AllSpace pre ∧ s = pre ++ trimLeftSpace budget s
      ∧ (trimLeftSpace budget s = []
        ∨ IsSpace (DecodeRuneInString (trimLeftSpace budget s)).1 = false) := by
  induction budget generalizing s with
  | zero =>
    have : s = [] := List.length_eq_zero.mp (by omega)
    subst this
    exact ⟨[], allSpace_nil, by simp [trimLeftSpace], Or.inl (by simp [trimLeftSpace])⟩
  | succ k ih =>
    cases s with
    | nil => exact ⟨[], allSpace_nil, by simp [trimLeftSpace], Or.inl (by simp [trimLeftSpace])⟩
    | cons b t =>
      by_cases hsp : IsSpace (DecodeRuneInString (b :: t)).1 = true
      · have hv := isSpace_valid _ hsp
        obtain ⟨e1, e2, _⟩ := decode_valid (b :: t) _ _ rfl hv.2
        have hsz := (decode_size (b :: t)).2 (by simp)
        have hlen : ((b :: t).drop (DecodeRuneInString (b :: t)).2).length ≤ k := by
          simp only [List.length_drop, List.length_cons] at h ⊢; omega
        obtain ⟨pre, p1, p2, p3⟩ := ih _ hlen
        have hstep : trimLeftSpace (k + 1) (b :: t)
            = trimLeftSpace k ((b :: t).drop (DecodeRuneInString (b :: t)).2) := by
          simp only [trimLeftSpace, hsp, if_true]
        rw [hstep]
        refine ⟨encodeRune (DecodeRuneInString (b :: t)).1 ++ pre, allSpace_cons _ _ hsp p1, ?_, p3⟩
        rw [List.append_assoc, ← p2]
        exact e1
      · have hstep : trimLeftSpace (k + 1) (b :: t) = b :: t := by
          simp only [trimLeftSpace, hsp, Bool.false_eq_true, if_false]
        rw [hstep]
        exact ⟨[], allSpace_nil, by simp, Or.inr (by simpa using hsp)⟩

theorem trimRightSpace_spec (budget : Nat) (s : GoString) (h : s.length ≤ budget) :
    ∃ post, AllSpace post ∧ s = trimRightSpace budget s ++ post
      ∧ (trimRightSpace budget s = []
        ∨ IsSpace (DecodeLastRuneInString (trimRightSpace budget s)).1 = false) := by
  induction budget generalizing s with
  | zero =>
    have : s = [] := List.length_eq_zero.mp (by omega)
    subst this
    exact ⟨[], allSpace_nil, by simp [trimRightSpace], Or.inl (by simp [trimRightSpace])⟩
  | succ k ih =>
    cases s with
    | nil => exact ⟨[], allSpace_nil, by simp [trimRightSpace], Or.inl (by simp [trimRightSpace])⟩
    | cons b t =>
      by_cases hsp : IsSpace (DecodeLastRuneInString (b :: t)).1 = true
      · have hv := isSpace_valid _ hsp
        obtain ⟨e1, e2, _⟩ := decodeLast_valid (b :: t) _ _ rfl hv.2
        have hsz := (decodeLast_size (b :: t)).2 (by simp)
        have hlen : ((b :: t).take ((b :: t).length
            - (DecodeLastRuneInString (b :: t)).2)).length ≤ k := by
          simp only [List.length_take, List.length_cons] at h ⊢; omega
        obtain ⟨post, p1, p2, p3⟩ := ih _ hlen
        have hstep : trimRightSpace (k + 1) (b :: t)
            = trimRightSpace k ((b :: t).take ((b :: t).length
              - (DecodeLastRuneInString (b :: t)).2)) := by
          simp only [trimRightSpace, hsp, if_true]
        rw [hstep]
        refine ⟨post ++ encodeRune (DecodeLastRuneInString (b :: t)).1,
          allSpace_snoc _ _ hsp p1, ?_, p3⟩
        rw [← List.append_assoc, ← p2]
        exact e1
      · have hstep : trimRightSpace (k + 1) (b :: t) = b :: t := by
          simp only [trimRightSpace, hsp, Bool.false_eq_true, if_false]
        rw [hstep]
        exact ⟨[], allSpace_nil, by simp, Or.inr (by simpa using hsp)⟩

theorem encodeRune_ne_nil (r : Nat) : encodeRune r ≠ [] := by
  unfold encodeRune
  split_ifs <;> simp

theorem trimSpace_isTrimOf (s : GoString) : IsTrimOf s (TrimSpace s) := by
  obtain ⟨pre, a1, a2, a3⟩ := trimLeftSpace_spec s.length s (le_refl _)
  obtain ⟨post, b1, b2, b3⟩ :=
    trimRightSpace_spec (trimLeftSpace s.length s).length (trimLeftSpace s.length s) (le_refl _)
  have hT : TrimSpace s = trimRightSpace (trimLeftSpace s.length s).length
      (trimLeftSpace s.length s) := rfl
  rw [← hT] at b2 b3
  refine ⟨pre, post, ?_, a1, b1, ?_, ?_⟩
  · rw [List.append_assoc, ← b2]; exact a2
  · rintro ⟨r, rest, hr, hrest⟩
    have hv := isSpace_valid r hr
    have ht : trimLeftSpace s.length s = encodeRune r ++ (rest ++ post) := by
      rw [b2, hrest, List.append_assoc]
    have hd := decode_encode r hv.1.1 hv.1.2 (rest ++ post)
    rw [← ht] at hd
    rcases a3 with a3 | a3
    · rw [a3] at ht
      exact encodeRune_ne_nil r (List.append_eq_nil.mp ht.symm).1
    · rw [hd] at a3
      simp [hr] at a3
  · rintro ⟨r, init, hr, hinit⟩
    have hv := isSpace_valid r hr
    have hd := decodeLast_encode r hv.1 init
    rw [← hinit] at hd
    rcases b3 with b3 | b3
    · rw [b3] at hinit
      exact encodeRune_ne_nil r (List.append_eq_nil.mp hinit.symm).2
    · rw [hd] at b3
      simp [hr] at b3


/-! ## Searching and splitting -/

theorem startsWith_iff (s p : GoString) : startsWith s p = true ↔ ∃ post, s = p ++ post := by
  induction p generalizing s with
  | nil => cases s <;> simp [startsWith]
  | cons c p ih =>
    cases s with
    | nil => simp [startsWith]
    | cons b s =>
      simp only [startsWith, Bool.and_eq_true, beq_iff_eq, ih, List.cons_append,
        List.cons.injEq]
      constructor
      · rintro ⟨rfl, post, rfl⟩; exact ⟨post, rfl, rfl⟩
      · rintro ⟨post, rfl, rfl⟩; exact ⟨rfl, post, rfl⟩

theorem contains_iff (s substr : GoString) :
    Contains s substr = true ↔ ∃ pre post, s = pre ++ substr ++ post := by
  induction s with
  | nil =>
    simp only [Contains, startsWith_iff]
    constructor
    · rintro ⟨post, h⟩; exact ⟨[], post, by simpa using h⟩
    · rintro ⟨pre, post, h⟩
      have h' := List.append_eq_nil.mp h.symm
      have h'' := List.append_eq_nil.mp h'.1
      exact ⟨[], by simp [h''.2]⟩
  | cons b s ih =>
    simp only [Contains, Bool.or_eq_true, startsWith_iff, ih]
    constructor
    · rintro (⟨post, h⟩ | ⟨pre, post, h⟩)
      · exact ⟨[], post, by simpa using h⟩
      · exact ⟨b :: pre, post, by simp [h]⟩
    · rintro ⟨pre, post, h⟩
      cases pre with
      | nil => exact Or.inl ⟨post, by simpa using h⟩
      | cons c pre =>
        simp only [List.cons_append, List.cons.injEq] at h
        exact Or.inr ⟨pre, post, h.2⟩

theorem split_no_sep (sep : Nat) (s : GoString) (h : sep ∉ s) : Split sep s = [s] := by
  induction s with
  | nil => rfl
  | cons b s ih =>
    have hb : b ≠ sep := fun e => h (by simp [e])
    have hs : sep ∉ s := fun e => h (by simp [e])
    simp only [Split, if_neg hb, ih hs]

/-! ## The loop of `VarName` -/

theorem foldl_varNameStep (U : UnicodeTables) (parts : List GoString) (st : VarState) :
    (parts.foldl (varNameStep U) st).b = st.b ++ loopOutput U st.last parts := by
  induction parts generalizing st with
  | nil => simp [loopOutput]
  | cons p ps ih =>
    rw [List.foldl_cons, ih]
    simp only [varNameStep, loopOutput]
    split <;> simp

theorem varName_eq_loopOutput (U : UnicodeTables) (c : tableEntry) :
    c.VarName U = loopOutput U 0 (Split 0x2D c.Name) := by
  unfold tableEntry.VarName
  rw [foldl_varNameStep]
  rfl

theorem isNumber_zero (U : UnicodeTables) : IsNumber U 0 = false := by
  simp [IsNumber]

theorem loopOutput_after (U : UnicodeTables) (rest : List GoString) (prev q : GoString)
    (hprev : prev ≠ []) (hq : q ≠ []) (hne : ∀ p ∈ rest, p ≠ []) :
    loopOutput U (DecodeLastRuneInString prev).1 (q :: rest)
      = (if needsUnderscore (IsNumber U) prev q then [0x5F] else [])
          ++ joinParts (IsNumber U) U (q :: rest) := by
  induction rest generalizing prev q with
  | nil =>
    obtain ⟨a, prev', rfl⟩ := List.exists_cons_of_ne_nil hprev
    obtain ⟨b, q', rfl⟩ := List.exists_cons_of_ne_nil hq
    simp [loopOutput, needsUnderscore, lastChar?, firstChar?, joinParts, capitalize]
  | cons q2 rest ih =>
    have hq2 : q2 ≠ [] := hne q2 (by simp)
    have hrest : ∀ p ∈ rest, p ≠ [] := fun p hp => hne p (by simp [hp])
    rw [loopOutput, ih q q2 hq hq2 hrest]
    obtain ⟨a, prev', rfl⟩ := List.exists_cons_of_ne_nil hprev
    obtain ⟨b, q', rfl⟩ := List.exists_cons_of_ne_nil hq
    simp [needsUnderscore, lastChar?, firstChar?, joinParts, capitalize]

theorem loopOutput_eq_joinParts (U : UnicodeTables) (parts : List GoString)
    (hne : ∀ p ∈ parts, p ≠ []) :
    loopOutput U 0 parts = joinParts (IsNumber U) U parts := by
  cases parts with
  | nil => simp [loopOutput, joinParts]
  | cons p rest =>
    have hp : p ≠ [] := hne p (by simp)
    have hrest : ∀ q ∈ rest, q ≠ [] := fun q hq => hne q (by simp [hq])
    cases rest with
    | nil =>
      obtain ⟨a, p', rfl⟩ := List.exists_cons_of_ne_nil hp
      simp [loopOutput, isNumber_zero, joinParts, capitalize]
    | cons q rest2 =>
      have hq : q ≠ [] := hrest q (by simp)
      have hrest2 : ∀ x ∈ rest2, x ≠ [] := fun x hx => hrest x (by simp [hx])
      rw [loopOutput, loopOutput_after U rest2 p q hp hq hrest2]
      obtain ⟨a, p', rfl⟩ := List.exists_cons_of_ne_nil hp
      simp [isNumber_zero, joinParts, capitalize]


/-! ## The template -/

theorem renderEntry_eq (U : UnicodeTables) (e : tableEntry) :
    renderEntry U e
      = goString "\n// "
        ++ (if e.IsDeprecated = true then goString "Deprecated: " else [])
        ++ e.VarName U ++ goString " is a " ++ e.Status
        ++ goString " code tagged \"" ++ e.Tag ++ goString "\""
        ++ (if e.Description ≠ [] then goString " and described by: " ++ e.Description else [])
        ++ goString ".\n"
        ++ e.VarName U ++ goString " Code = " ++ e.Code ++ goString " // " ++ e.Name
        ++ goString "\n" := by
  simp only [renderEntry, rangeBody, List.flatMap_cons, List.flatMap_nil, Node.exec,
    Inline.exec, Pipeline.eval, Value.print, Value.truth, Field.get, List.append_nil]
  cases hd : e.IsDeprecated <;> cases hdesc : e.Description <;>
    simp [List.isEmpty]

theorem execute_codeTemplate (U : UnicodeTables) (entries : List tableEntry) :
    Execute U codeTemplate entries
      = goString "\n// Code generated by gen.go; DO NOT EDIT.\n\npackage multicodec\n\nconst ("
        ++ entries.flatMap (renderEntry U) ++ goString ")\n" := by
  have hr : renderEntry U = fun c => rangeBody.flatMap (Node.exec U c) := rfl
  simp only [Execute, codeTemplate, List.flatMap_cons, List.flatMap_nil, Top.exec,
    List.append_nil, hr, List.append_assoc]

/-! ## The reading loop -/

theorem mkEntry_short (fields : List GoString) (h : fields.length < 5) :
    mkEntry fields = none := by
  match fields, h with
  | [], _ => rfl
  | [_], _ => rfl
  | [_, _], _ => rfl
  | [_, _, _], _ => rfl
  | [_, _, _, _], _ => rfl
  | _ :: _ :: _ :: _ :: _ :: _, h => simp at h; omega

theorem mkEntry_long (fields : List GoString) (h : 5 ≤ fields.length) :
    mkEntry fields = some (entryOf fields) := by
  match fields, h with
  | [], h | [_], h | [_, _], h | [_, _, _], h | [_, _, _, _], h => simp at h
  | _ :: _ :: _ :: _ :: _ :: _, _ => simp [mkEntry, entryOf]

theorem readRecord_fields (fpr : Nat) (raw : RawRecord) :
    (readRecord fpr raw).1 = raw.fields := by
  simp only [readRecord]
  split_ifs <;> rfl

theorem readLoop_short (rows : List RawRecord) (h : ∃ raw ∈ rows, raw.fields.length < 5)
    (fpr : Nat) (acc : List tableEntry) : ∃ a, readLoop fpr rows acc = .error a := by
  induction rows generalizing fpr acc with
  | nil => obtain ⟨raw, hm, _⟩ := h; simp at hm
  | cons raw rest ih =>
    unfold readLoop
    have hf := readRecord_fields fpr raw
    rcases hrr : readRecord fpr raw with ⟨record, err, fpr'⟩
    rw [hrr] at hf
    simp only at hf
    subst hf
    cases err with
    | some e => exact ⟨_, rfl⟩
    | none =>
      simp only
      cases hmk : mkEntry raw.fields with
      | none => exact ⟨_, rfl⟩
      | some entry =>
        simp only
        apply ih
        obtain ⟨x, hx, hlen⟩ := h
        rcases List.mem_cons.mp hx with rfl | hx
        · rw [mkEntry_short _ hlen] at hmk; cases hmk
        · exact ⟨x, hx, hlen⟩

theorem readLoop_ok (rows : List RawRecord) (fpr : Nat) (hfpr : 0 < fpr)
    (h : ∀ r ∈ rows, 5 ≤ r.fields.length ∧ r.fields.length = fpr ∧ r.syntaxError = false)
    (acc : List tableEntry) :
    readLoop fpr rows acc = .ok (acc ++ rows.map fun r => entryOf r.fields) := by
  induction rows generalizing acc with
  | nil => simp [readLoop]
  | cons raw rest ih =>
    obtain ⟨h5, hlen, hsyn⟩ := h raw (by simp)
    have hrr : readRecord fpr raw = (raw.fields, none, fpr) := by
      simp [readRecord, hfpr, hlen, hsyn]
    unfold readLoop
    rw [hrr]
    simp only [mkEntry_long _ h5]
    rw [ih (fun r hr => h r (by simp [hr]))]
    simp


/-! ## Splitting and joining -/

theorem split_ne_nil (sep : Nat) (s : GoString) : Split sep s ≠ [] := by
  cases s with
  | nil => simp [Split]
  | cons b rest =>
    unfold Split
    split
    · simp
    · split <;> simp

theorem split_no_sep_mem (sep : Nat) (s : GoString) : ∀ p ∈ Split sep s, sep ∉ p := by
  induction s with
  | nil => simp [Split]
  | cons b rest ih =>
    unfold Split
    split
    · intro p hp
      rcases List.mem_cons.mp hp with rfl | hp
      · simp
      · exact ih p hp
    · rename_i hb
      split
      · intro p hp
        simp only [List.mem_singleton] at hp
        subst hp
        simp only [List.mem_singleton]
        exact fun e => hb e.symm
      · rename_i q qs hq
        intro p hp
        rcases List.mem_cons.mp hp with rfl | hp
        · intro hm
          rcases List.mem_cons.mp hm with e | hm
          · exact hb e.symm
          · exact ih q (by rw [hq]; simp) hm
        · exact ih p (by rw [hq]; simp [hp])

theorem joinWith_split (sep : Nat) (s : GoString) : joinWith sep (Split sep s) = s := by
  induction s with
  | nil => rfl
  | cons b rest ih =>
    unfold Split
    split
    · rename_i hb
      rcases hs : Split sep rest with _ | ⟨q, qs⟩
      · exact absurd hs (split_ne_nil sep rest)
      · rw [hs] at ih
        simp only [joinWith, List.nil_append, ih, hb]
    · rcases hs : Split sep rest with _ | ⟨q, qs⟩
      · exact absurd hs (split_ne_nil sep rest)
      · rw [hs] at ih
        simp only
        cases qs with
        | nil =>
          simp only [joinWith] at ih ⊢
          rw [ih]
        | cons q2 qs2 =>
          simp only [joinWith, List.cons_append] at ih ⊢
          rw [ih]

/-! ## ASCII parts -/

theorem decode_ascii (b : Nat) (t : GoString) (hb : b < 0x80) :
    DecodeRuneInString (b :: t) = (b, 1) := by
  have : b < RuneSelf := hb
  simp only [DecodeRuneInString, this, if_true]

theorem getD_getLast (s : GoString) (hne : s ≠ []) :
    s.getD (s.length - 1) 0 = s.getLast hne := by
  have hlt : s.length - 1 < s.length := by
    have := List.length_pos.mpr hne; omega
  rw [List.getD_eq_getElem _ _ hlt, List.getLast_eq_getElem]

theorem decodeLast_ascii (s : GoString) (hne : s ≠ []) (hb : s.getLast hne < 0x80) :
    DecodeLastRuneInString s = (s.getLast hne, 1) := by
  have hlen : ¬ s.length = 0 := fun h => hne (List.length_eq_zero.mp h)
  have hr : s.getD (s.length - 1) 0 < RuneSelf := by
    rw [getD_getLast s hne]; exact hb
  unfold DecodeLastRuneInString
  simp only [hlen, if_false, hr, if_true]
  rw [getD_getLast s hne]

theorem toUpper_ascii (U : UnicodeTables) (b : Nat) (hb : b < 0x80) :
    ToUpper U b = if 0x61 ≤ b ∧ b ≤ 0x7A then b - 0x20 else b := by
  unfold ToUpper
  rw [if_pos (by omega)]

theorem isNumber_ascii (U : UnicodeTables) (b : Nat) (hb : b < 0x80) :
    IsNumber U b = isDecimalDigit b := by
  unfold IsNumber isDecimalDigit
  rw [if_pos (by omega)]
  by_cases h : 0x30 ≤ b ∧ b ≤ 0x39
  · rw [decide_eq_true (Or.inl h), decide_eq_true h]
  · have h' : ¬ ((0x30 ≤ b ∧ b ≤ 0x39) ∨ b = 0xB2 ∨ b = 0xB3 ∨ b = 0xB9
        ∨ (0xBC ≤ b ∧ b ≤ 0xBE)) := by omega
    rw [decide_eq_false h', decide_eq_false h]

theorem isAlnum_lt (b : Nat) (h : isAlnum b = true) : b < 0x80 := by
  simp only [isAlnum, isAsciiLetter, isDecimalDigit, Bool.or_eq_true, decide_eq_true_eq] at h
  omega

theorem isDecimalDigit_lt (b : Nat) (h : isDecimalDigit b = true) : b < 0x80 := by
  simp only [isDecimalDigit, decide_eq_true_eq] at h
  omega


/-! ## The loop of `VarName` on all inputs -/

theorem isNumber_RuneError (U : UnicodeTables) : IsNumber U RuneError = false := by
  simp [IsNumber, RuneError, U.number_RuneError]

theorem toUpper_RuneError (U : UnicodeTables) : ToUpper U RuneError = RuneError := by
  simp [ToUpper, RuneError, U.upper_RuneError]

theorem encodeRune_RuneError : encodeRune RuneError = [0xEF, 0xBF, 0xBD] := by decide

theorem needsUnderscore_eq (U : UnicodeTables) (p q : GoString) :
    needsUnderscore (IsNumber U) p q
      = (IsNumber U (DecodeLastRuneInString p).1 && IsNumber U (DecodeRuneInString q).1) := by
  cases p with
  | nil =>
    have : (DecodeLastRuneInString []).1 = RuneError := rfl
    simp [needsUnderscore, lastChar?, this, isNumber_RuneError]
  | cons a p' =>
    cases q with
    | nil =>
      have : (DecodeRuneInString []).1 = RuneError := rfl
      simp [needsUnderscore, lastChar?, firstChar?, this, isNumber_RuneError]
    | cons b q' => simp [needsUnderscore, lastChar?, firstChar?]

theorem piece_eq (U : UnicodeTables) (p : GoString) :
    piece U p
      = encodeRune (ToUpper U (DecodeRuneInString p).1) ++ p.drop (DecodeRuneInString p).2 := by
  cases p with
  | nil =>
    have : DecodeRuneInString [] = (RuneError, 0) := rfl
    simp [piece, this, toUpper_RuneError, encodeRune_RuneError]
  | cons a p' => simp [piece, capitalize]

theorem loopOutput_pieces (U : UnicodeTables) (rest : List GoString) (prev q : GoString) :
    loopOutput U (DecodeLastRuneInString prev).1 (q :: rest)
      = (if needsUnderscore (IsNumber U) prev q then [0x5F] else [])
          ++ joinPieces U (q :: rest) := by
  induction rest generalizing prev q with
  | nil =>
    simp [loopOutput, joinPieces, piece_eq, needsUnderscore_eq]
  | cons q2 rest ih =>
    rw [loopOutput, ih q q2]
    simp [joinPieces, piece_eq, needsUnderscore_eq]

theorem loopOutput_eq_joinPieces (U : UnicodeTables) (parts : List GoString) :
    loopOutput U 0 parts = joinPieces U parts := by
  cases parts with
  | nil => simp [loopOutput, joinPieces]
  | cons p rest =>
    cases rest with
    | nil => simp [loopOutput, isNumber_zero, joinPieces, piece_eq]
    | cons q rest2 =>
      rw [loopOutput, loopOutput_pieces U rest2 p q]
      simp [isNumber_zero, joinPieces, piece_eq]

/-! ## Checked slices -/

theorem varNameStep?_eq (U : UnicodeTables) (st : VarState) (part : GoString) :
    varNameStep? U st part = some (varNameStep U st part) := by
  have h := (decode_size part).1
  simp only [varNameStep?, varNameStep, sliceFrom, h, if_true]

theorem varNameLoop?_eq (U : UnicodeTables) (parts : List GoString) (st : VarState) :
    varNameLoop? U st parts = some (parts.foldl (varNameStep U) st) := by
  induction parts generalizing st with
  | nil => rfl
  | cons p ps ih =>
    simp only [varNameLoop?, varNameStep?_eq, List.foldl_cons, ih]


/-! ## Names made of ASCII letters and digits -/

theorem loopOutput_cons_ascii (U : UnicodeTables) (last b : Nat) (t : GoString)
    (ps : List GoString) (hb : b < 0x80) :
    loopOutput U last ((b :: t) :: ps)
      = (if IsNumber U last && isDecimalDigit b then [0x5F] else [])
          ++ (if 0x61 ≤ b ∧ b ≤ 0x7A then b - 0x20 else b) :: t
          ++ loopOutput U (DecodeLastRuneInString (b :: t)).1 ps := by
  have he : encodeRune (if 0x61 ≤ b ∧ b ≤ 0x7A then b - 0x20 else b)
      = [if 0x61 ≤ b ∧ b ≤ 0x7A then b - 0x20 else b] := by
    unfold encodeRune
    rw [if_pos (by split <;> omega)]
  simp only [loopOutput, decode_ascii b t hb, toUpper_ascii U b hb, isNumber_ascii U b hb, he,
    List.drop_succ_cons, List.drop_zero, List.append_assoc, List.singleton_append]

theorem isIdentByte_upper (b : Nat) (h : isAlnum b = true) :
    isIdentByte (if 0x61 ≤ b ∧ b ≤ 0x7A then b - 0x20 else b) = true := by
  simp only [isAlnum, isAsciiLetter, isDecimalDigit, Bool.or_eq_true, decide_eq_true_eq] at h
  simp only [isIdentByte, isAlnum, isAsciiLetter, isDecimalDigit, Bool.or_eq_true,
    decide_eq_true_eq]
  split <;> omega

theorem isIdentByte_of_alnum (b : Nat) (h : isAlnum b = true) : isIdentByte b = true := by
  simp [isIdentByte, h]

theorem loopOutput_ident (U : UnicodeTables) (parts : List GoString)
    (h : ∀ p ∈ parts, p ≠ [] ∧ ∀ b ∈ p, isAlnum b = true) (last : Nat) :
    ∀ x ∈ loopOutput U last parts, isIdentByte x = true := by
  induction parts generalizing last with
  | nil => simp [loopOutput]
  | cons p ps ih =>
    obtain ⟨hp, hal⟩ := h p (by simp)
    obtain ⟨b, t, rfl⟩ := List.exists_cons_of_ne_nil hp
    have hb := hal b (by simp)
    rw [loopOutput_cons_ascii U last b t ps (isAlnum_lt b hb)]
    intro x hx
    rcases List.mem_append.mp hx with hx | hx
    · rcases List.mem_append.mp hx with hx | hx
      · split at hx
        · rw [List.mem_singleton.mp hx]; decide
        · simp at hx
      · rcases List.mem_cons.mp hx with rfl | hx
        · exact isIdentByte_upper b hb
        · exact isIdentByte_of_alnum x (hal x (by simp [hx]))
    · exact ih (fun q hq => h q (by simp [hq])) _ x hx

theorem head_of_split (s : GoString) (b : Nat) (t : GoString) (ps : List GoString)
    (h : Split 0x2D s = (b :: t) :: ps) : s.headD 0 = b := by
  have := joinWith_split 0x2D s
  rw [h] at this
  rw [← this]
  cases ps <;> rfl

theorem isDecimalDigit_upper (b : Nat) :
    isDecimalDigit (if 0x61 ≤ b ∧ b ≤ 0x7A then b - 0x20 else b) = isDecimalDigit b := by
  unfold isDecimalDigit
  split
  · rw [decide_eq_false (by omega), decide_eq_false (by omega)]
  · rfl

theorem isAsciiLetter_upper (b : Nat) (h : isAsciiLetter b = true) :
    isAsciiLetter (if 0x61 ≤ b ∧ b ≤ 0x7A then b - 0x20 else b) = true := by
  simp only [isAsciiLetter, decide_eq_true_eq] at h ⊢
  split <;> omega

/-! ## Names made of digits -/

theorem capitalize_digits (U : UnicodeTables) (p : GoString)
    (h : ∀ b ∈ p, isDecimalDigit b = true) : capitalize U p = p := by
  cases p with
  | nil => rfl
  | cons b t =>
    have hb := h b (by simp)
    have hlt := isDecimalDigit_lt b hb
    have hd : ¬ (0x61 ≤ b ∧ b ≤ 0x7A) := by
      simp only [isDecimalDigit, decide_eq_true_eq] at hb; omega
    have he : encodeRune b = [b] := by
      unfold encodeRune; rw [if_pos (by omega)]
    simp only [capitalize, decode_ascii b t hlt, toUpper_ascii U b hlt, if_neg hd, he,
      List.drop_succ_cons, List.drop_zero, List.singleton_append]

theorem needsUnderscore_digits (U : UnicodeTables) (p q : GoString) (hp : p ≠ []) (hq : q ≠ [])
    (hpd : ∀ b ∈ p, isDecimalDigit b = true) (hqd : ∀ b ∈ q, isDecimalDigit b = true) :
    needsUnderscore (IsNumber U) p q = true := by
  have hl := hpd (p.getLast hp) (List.getLast_mem hp)
  obtain ⟨b, t, rfl⟩ := List.exists_cons_of_ne_nil hq
  have hb := hqd b (by simp)
  rw [needsUnderscore_eq, decodeLast_ascii p hp (isDecimalDigit_lt _ hl),
    decode_ascii b t (isDecimalDigit_lt b hb), isNumber_ascii U _ (isDecimalDigit_lt _ hl),
    isNumber_ascii U b (isDecimalDigit_lt b hb), hl, hb]
  rfl

theorem joinParts_digits (U : UnicodeTables) (parts : List GoString)
    (h : ∀ p ∈ parts, p ≠ [] ∧ ∀ b ∈ p, isDecimalDigit b = true) :
    joinParts (IsNumber U) U parts = joinWith 0x5F parts := by
  induction parts with
  | nil => rfl
  | cons p ps ih =>
    have hp := h p (by simp)
    have hps : ∀ q ∈ ps, q ≠ [] ∧ ∀ b ∈ q, isDecimalDigit b = true :=
      fun q hq => h q (by simp [hq])
    cases ps with
    | nil => simp only [joinParts, joinWith, capitalize_digits U p hp.2]
    | cons q rest =>
      have hq := hps q (by simp)
      simp only [joinParts, joinWith, capitalize_digits U p hp.2,
        needsUnderscore_digits U p q hp.1 hq.1 hp.2 hq.2, if_true, ih hps,
        List.append_assoc, List.singleton_append]

theorem map_joinWith (parts : List GoString) (h : ∀ p ∈ parts, 0x2D ∉ p) :
    (joinWith 0x2D parts).map hyphenToUnderscore = joinWith 0x5F parts := by
  have hmap : ∀ p : GoString, 0x2D ∉ p → p.map hyphenToUnderscore = p := by
    intro p hp
    conv_rhs => rw [← List.map_id p]
    apply List.map_congr_left
    intro b hb
    have : b ≠ 0x2D := fun e => hp (e ▸ hb)
    simp [hyphenToUnderscore, this]
  induction parts with
  | nil => rfl
  | cons p ps ih =>
    have hp := hmap p (h p (by simp))
    have hps : ∀ q ∈ ps, 0x2D ∉ q := fun q hq => h q (by simp [hq])
    cases ps with
    | nil => simpa only [joinWith] using hp
    | cons q rest =>
      simp only [joinWith, List.map_append, List.map_cons, hp, ih hps]
      rfl

theorem mem_joinWith (sep : Nat) (parts : List GoString) (x : Nat)
    (hx : x ∈ joinWith sep parts) : x = sep ∨ ∃ p ∈ parts, x ∈ p := by
  induction parts with
  | nil => simp [joinWith] at hx
  | cons p ps ih =>
    cases ps with
    | nil => exact Or.inr ⟨p, by simp, by simpa [joinWith] using hx⟩
    | cons q rest =>
      simp only [joinWith, List.mem_append, List.mem_cons] at hx
      rcases hx with hx | hx | hx
      · exact Or.inr ⟨p, by simp, hx⟩
      · exact Or.inl hx
      · rcases ih hx with h | ⟨r, hr, hxr⟩
        · exact Or.inl h
        · exact Or.inr ⟨r, by simp [List.mem_cons.mp hr], hxr⟩

theorem map_hyphenToUnderscore_inj (s t : GoString) (hs : 0x5F ∉ s) (ht : 0x5F ∉ t)
    (h : s.map hyphenToUnderscore = t.map hyphenToUnderscore) : s = t := by
  induction s generalizing t with
  | nil =>
    cases t with
    | nil => rfl
    | cons b t => simp at h
  | cons a s ih =>
    cases t with
    | nil => simp at h
    | cons b t =>
      simp only [List.map_cons, List.cons.injEq] at h
      have ha : a ≠ 0x5F := fun e => hs (by simp [e])
      have hb : b ≠ 0x5F := fun e => ht (by simp [e])
      have hab : a = b := by
        have h1 := h.1
        unfold hyphenToUnderscore at h1
        split at h1 <;> split at h1 <;> omega
      rw [hab, ih t (fun e => hs (by simp [e])) (fun e => ht (by simp [e])) h.2]


/-! ## Deriving a name twice -/

theorem mem_encodeRune_lt (r x : Nat) (hx : x ∈ encodeRune r) (hlt : x < 0x80) : r = x := by
  unfold encodeRune at hx
  split at hx
  · exact (List.mem_singleton.mp hx).symm
  split at hx
  · simp only [List.mem_cons, List.mem_singleton, List.not_mem_nil, or_false] at hx; omega
  split at hx
  · simp only [List.mem_cons, List.mem_singleton, List.not_mem_nil, or_false] at hx; omega
  split at hx
  · simp only [List.mem_cons, List.mem_singleton, List.not_mem_nil, or_false] at hx; omega
  · simp only [List.mem_cons, List.mem_singleton, List.not_mem_nil, or_false] at hx; omega

theorem decode_lt_mem (p : GoString) (h : (DecodeRuneInString p).1 < 0x80) :
    (DecodeRuneInString p).1 ∈ p := by
  rcases hd : DecodeRuneInString p with ⟨r, n⟩
  rw [hd] at h
  simp only at h ⊢
  have hne : r ≠ RuneError := by
    unfold RuneError; omega
  obtain ⟨e1, _, _⟩ := decode_valid p r n hd hne
  have he : encodeRune r = [r] := by
    unfold encodeRune; rw [if_pos (by omega)]
  rw [he] at e1
  rw [e1]
  simp

theorem encodeRune_invalid (u : Nat) (h : ¬ ValidRune u) :
    encodeRune u = [0xEF, 0xBF, 0xBD] := by
  unfold ValidRune MaxRune at h
  unfold encodeRune
  rw [if_neg (by omega), if_neg (by omega), if_pos (by unfold MaxRune; omega)]

theorem redecode (U : UnicodeTables) (u : Nat) (tail : GoString) (hu : ToUpper U u = u) :
    encodeRune (ToUpper U (DecodeRuneInString (encodeRune u ++ tail)).1)
        ++ (encodeRune u ++ tail).drop (DecodeRuneInString (encodeRune u ++ tail)).2
      = encodeRune u ++ tail := by
  by_cases hv : ValidRune u
  · rw [decode_encode u hv.1 hv.2 tail]
    simp only [hu, List.drop_left]
  · have hR : ValidRune RuneError := by decide
    rw [encodeRune_invalid u hv, ← encodeRune_RuneError, decode_encode RuneError hR.1 hR.2 tail]
    simp only [toUpper_RuneError, List.drop_left]

theorem loopOutput_no_hyphen (U : UnicodeTables)
    (h2 : ∀ r, ToUpper U r = 0x2D → r = 0x2D) (parts : List GoString)
    (hp : ∀ p ∈ parts, 0x2D ∉ p) (last : Nat) : 0x2D ∉ loopOutput U last parts := by
  induction parts generalizing last with
  | nil => simp [loopOutput]
  | cons p ps ih =>
    have hpp := hp p (by simp)
    simp only [loopOutput, List.mem_append, not_or]
    refine ⟨⟨⟨?_, ?_⟩, ?_⟩, ih (fun q hq => hp q (by simp [hq])) _⟩
    · split <;> simp
    · intro hm
      have e := mem_encodeRune_lt _ _ hm (by omega)
      have e2 := h2 _ e
      have := decode_lt_mem p (by rw [e2]; omega)
      rw [e2] at this
      exact hpp this
    · exact fun hm => hpp (List.mem_of_mem_drop hm)

theorem loopOutput_head (U : UnicodeTables) (parts : List GoString) (hne : parts ≠ []) :
    ∃ f tail, loopOutput U 0 parts = encodeRune (ToUpper U f) ++ tail := by
  obtain ⟨p, ps, rfl⟩ := List.exists_cons_of_ne_nil hne
  refine ⟨(DecodeRuneInString p).1, p.drop (DecodeRuneInString p).2
    ++ loopOutput U (DecodeLastRuneInString p).1 ps, ?_⟩
  simp only [loopOutput, isNumber_zero, Bool.false_and, Bool.false_eq_true, if_false,
    List.nil_append, List.append_assoc]

theorem varName_twice (U : UnicodeTables)
    (h1 : ∀ r, ToUpper U (ToUpper U r) = ToUpper U r)
    (h2 : ∀ r, ToUpper U r = 0x2D → r = 0x2D) (c : tableEntry) :
    0x2D ∉ c.VarName U ∧ (named (c.VarName U)).VarName U = c.VarName U := by
  have hno : 0x2D ∉ c.VarName U := by
    rw [varName_eq_loopOutput]
    exact loopOutput_no_hyphen U h2 _ (split_no_sep_mem 0x2D c.Name) 0
  refine ⟨hno, ?_⟩
  rw [varName_eq_loopOutput U (named (c.VarName U))]
  show loopOutput U 0 (Split 0x2D (c.VarName U)) = _
  rw [split_no_sep _ _ hno]
  obtain ⟨f, tail, hout⟩ := loopOutput_head U (Split 0x2D c.Name) (split_ne_nil _ _)
  rw [varName_eq_loopOutput U c, hout]
  simp only [loopOutput, isNumber_zero, Bool.false_and, Bool.false_eq_true, if_false,
    List.nil_append, List.append_nil]
  exact redecode U (ToUpper U f) tail (h1 f)

theorem sampleTables_upper_idem (r : Nat) :
    ToUpper sampleTables (ToUpper sampleTables r) = ToUpper sampleTables r := by
  unfold ToUpper sampleTables
  by_cases h : r ≤ 0x7F
  · simp only [if_pos h]
    split
    · rw [if_pos (by omega), if_neg (by omega)]
    · rename_i hl
      simp only [if_pos h, if_neg hl]
  · simp only [if_neg h]

theorem sampleTables_upper_hyphen (r : Nat) (hr : ToUpper sampleTables r = 0x2D) :
    r = 0x2D := by
  unfold ToUpper sampleTables at hr
  by_cases h : r ≤ 0x7F
  · simp only [if_pos h] at hr
    split at hr <;> omega
  · simp only [if_neg h] at hr
    omega


/-! ## The claims -/

/-- C1, as stated, fails: the name `x²-2` has the two non-empty parts `x²` and
`2`; the first ends in `²`, which is no decimal digit, yet `VarName` puts an
underscore between them (`X²_2`), where the claimed rule gives `X²2`. -/
theorem VarName_underscore_without_decimal_digit :
    (∀ p ∈ Split 0x2D (goString "x²-2"), p ≠ [])
    ∧ lastChar? (goString "x²") = some 0xB2 ∧ isDecimalDigit 0xB2 = false
    ∧ (∀ U, (named (goString "x²-2")).VarName U = goString "X²_2")
    ∧ (∀ U, derivedName isDecimalDigit U (goString "x²-2") = goString "X²2")
    ∧ (∀ U, (named (goString "x²-2")).VarName U
        ≠ derivedName isDecimalDigit U (goString "x²-2")) :=
  ⟨by decide, by decide, by decide, fun _ => rfl, fun _ => rfl, fun U => by
    rw [show (named (goString "x²-2")).VarName U = goString "X²_2" from rfl,
      show derivedName isDecimalDigit U (goString "x²-2") = goString "X²2" from rfl]
    decide⟩

/-- C1 (amended): for every name whose hyphen-separated parts are all
non-empty, `VarName` returns the parts, in order, each with its first character
upper-cased and its remainder unchanged, with a single `_` before a part
exactly when the last character of the previous part and the first character
of this part are both numbers in the sense of `unicode.IsNumber`, and with no
separator otherwise. -/
theorem VarName_eq_derivedName (U : UnicodeTables) (c : tableEntry)
    (h : ∀ p ∈ Split 0x2D c.Name, p ≠ []) :
    c.VarName U = derivedName (IsNumber U) U c.Name := by
  rw [varName_eq_loopOutput, loopOutput_eq_joinParts U _ h]
  rfl

/-- Instance of C1 (amended) at the name `sha2-256`. -/
theorem VarName_eq_derivedName_witness :
    (∀ p ∈ Split 0x2D (named (goString "sha2-256")).Name, p ≠ [])
    ∧ (named (goString "sha2-256")).VarName sampleTables
        = derivedName (IsNumber sampleTables) sampleTables (goString "sha2-256") :=
  ⟨by decide, VarName_eq_derivedName sampleTables (named (goString "sha2-256")) (by decide)⟩

/-- C2: the text the template renders for an entry is a newline, `// `, the
prefix `Deprecated: ` exactly when `IsDeprecated` is true, the derived name,
` is a `, the status, ` code tagged `, the tag in double quotes, the suffix
` and described by: ` with the description exactly when the description is not
empty, a full stop and a newline, then the declaration line with the derived
name, the code and the name, all fields verbatim. -/
theorem renderEntry_text (U : UnicodeTables) (e : tableEntry) :
    renderEntry U e
      = goString "\n// "
        ++ (if e.IsDeprecated = true then goString "Deprecated: " else [])
        ++ e.VarName U ++ goString " is a " ++ e.Status
        ++ goString " code tagged \"" ++ e.Tag ++ goString "\""
        ++ (if e.Description ≠ [] then goString " and described by: " ++ e.Description else [])
        ++ goString ".\n"
        ++ e.VarName U ++ goString " Code = " ++ e.Code ++ goString " // " ++ e.Name
        ++ goString "\n" :=
  renderEntry_eq U e

set_option maxRecDepth 100000 in
/-- C3: the rendered document is the fixed preamble, then one block for each
entry, in the input order of the entries, then `)` and a newline; the block of
an entry is its comment line and its declaration line; for the empty list the
document is the preamble followed by `)` and a newline. -/
theorem Execute_document (U : UnicodeTables) :
    (∀ entries : List tableEntry,
      Execute U codeTemplate entries
        = goString "\n// Code generated by gen.go; DO NOT EDIT.\n\npackage multicodec\n\nconst ("
          ++ (entries.map fun e =>
                goString "\n// "
                ++ (if e.IsDeprecated = true then goString "Deprecated: " else [])
                ++ e.VarName U ++ goString " is a " ++ e.Status
                ++ goString " code tagged \"" ++ e.Tag ++ goString "\""
                ++ (if e.Description ≠ [] then
                      goString " and described by: " ++ e.Description else [])
                ++ goString ".\n"
                ++ e.VarName U ++ goString " Code = " ++ e.Code ++ goString " // " ++ e.Name
                ++ goString "\n").flatten
          ++ goString ")\n")
    ∧ Execute U codeTemplate []
        = goString "\n// Code generated by gen.go; DO NOT EDIT.\n\npackage multicodec\n\nconst ()\n" := by
  refine ⟨fun entries => ?_, rfl⟩
  rw [execute_codeTemplate, List.flatMap_def]
  have hr : renderEntry U = fun e =>
      goString "\n// "
      ++ (if e.IsDeprecated = true then goString "Deprecated: " else [])
      ++ e.VarName U ++ goString " is a " ++ e.Status
      ++ goString " code tagged \"" ++ e.Tag ++ goString "\""
      ++ (if e.Description ≠ [] then goString " and described by: " ++ e.Description else [])
      ++ goString ".\n"
      ++ e.VarName U ++ goString " Code = " ++ e.Code ++ goString " // " ++ e.Name
      ++ goString "\n" := funext (renderEntry_eq U)
  rw [hr]

/-- C4: `IsDeprecated` is true exactly when the description contains the
bytes of `deprecated`; it is true for `this is deprecated, use X`, false for
`stable`, and false when the word occurs only with a capital D. -/
theorem IsDeprecated_iff_contains :
    (∀ c : tableEntry, c.IsDeprecated = true
      ↔ ∃ pre post, c.Description = pre ++ goString "deprecated" ++ post)
    ∧ ({ named [] with Description := goString "this is deprecated, use X" }
        : tableEntry).IsDeprecated = true
    ∧ ({ named [] with Description := goString "stable" } : tableEntry).IsDeprecated = false
    ∧ ({ named [] with Description := goString "Deprecated" } : tableEntry).IsDeprecated = false
    ∧ ({ named [] with Description := goString "this is Deprecated, use X" }
        : tableEntry).IsDeprecated = false :=
  ⟨fun c => contains_iff c.Description (goString "deprecated"),
    by decide, by decide, by decide, by decide⟩


/-- C5: the entry built from a record with at least five fields has as Name,
Tag, Code, Status and Description the fields 0, 1, 2, 3 and 4 with leading and
trailing white space stripped and nothing else changed; no stored field begins
or ends with white space; the fields after the fifth do not affect it. -/
theorem mkEntry_trimmed_fields (record : List GoString) (h : 5 ≤ record.length) :
    ∃ e, mkEntry record = some e
      ∧ e.Name = TrimSpace (record.getD 0 []) ∧ IsTrimOf (record.getD 0 []) e.Name
      ∧ e.Tag = TrimSpace (record.getD 1 []) ∧ IsTrimOf (record.getD 1 []) e.Tag
      ∧ e.Code = TrimSpace (record.getD 2 []) ∧ IsTrimOf (record.getD 2 []) e.Code
      ∧ e.Status = TrimSpace (record.getD 3 []) ∧ IsTrimOf (record.getD 3 []) e.Status
      ∧ e.Description = TrimSpace (record.getD 4 [])
      ∧ IsTrimOf (record.getD 4 []) e.Description
      ∧ ∀ other : List GoString, other.take 5 = record.take 5 → mkEntry other = some e := by
  refine ⟨entryOf record, mkEntry_long record h, rfl, trimSpace_isTrimOf _, rfl,
    trimSpace_isTrimOf _, rfl, trimSpace_isTrimOf _, rfl, trimSpace_isTrimOf _, rfl,
    trimSpace_isTrimOf _, ?_⟩
  intro other ho
  have hlen : 5 ≤ other.length := by
    have := congrArg List.length ho
    simp only [List.length_take] at this
    omega
  rw [mkEntry_long other hlen]
  match record, other, h, hlen, ho with
  | _ :: _ :: _ :: _ :: _ :: _, _ :: _ :: _ :: _ :: _ :: _, _, _, ho =>
    simp only [List.take_succ_cons, List.take_zero, List.cons.injEq, and_true] at ho
    obtain ⟨rfl, rfl, rfl, rfl, rfl⟩ := ho
    rfl

/-- Instance of C5 at a record of six fields with white space around some. -/
theorem mkEntry_trimmed_fields_witness :
    5 ≤ [goString " sha2-256", goString "multihash ", goString "\t0x12", goString "permanent",
        goString " SHA-256  ", goString "more"].length
    ∧ ∃ e, mkEntry [goString " sha2-256", goString "multihash ", goString "\t0x12",
        goString "permanent", goString " SHA-256  ", goString "more"] = some e
      ∧ e.Name = goString "sha2-256" :=
  ⟨by decide,
    (mkEntry_trimmed_fields [goString " sha2-256", goString "multihash ", goString "\t0x12",
      goString "permanent", goString " SHA-256  ", goString "more"] (by decide)).imp
      fun _ he => ⟨he.1, he.2.1.trans (by decide)⟩⟩

/-- C6: when some data row of the input has fewer than five fields, the run
aborts and writes no output: `code_table.go` is never created or truncated. -/
theorem main_aborts_on_short_row (U : UnicodeTables) (env : Env) (header : RawRecord)
    (rows : List RawRecord) (hresp : env.response = some (header :: rows))
    (hshort : ∃ raw ∈ rows, raw.fields.length < 5) :
    (∃ a, (main U env).outcome = .aborted a) ∧ (main U env).file = none := by
  obtain ⟨a, ha⟩ := readLoop_short rows hshort (readRecord 0 header).2.2 []
  have hp : parseTable (header :: rows) = .error a := ha
  have hm : main U env = { outcome := .aborted a, file := none } := by
    simp only [main, hresp, hp]
  rw [hm]
  exact ⟨⟨a, rfl⟩, rfl⟩

/-- Instance of C6: a short row after a good row. -/
theorem main_aborts_on_short_row_witness :
    (∃ raw ∈ [sampleRow1, shortRow], raw.fields.length < 5)
    ∧ (main sampleTables (envOf [sampleHeader, sampleRow1, shortRow])).file = none :=
  ⟨⟨shortRow, by simp, by decide⟩,
    (main_aborts_on_short_row sampleTables (envOf [sampleHeader, sampleRow1, shortRow])
      sampleHeader [sampleRow1, shortRow] rfl ⟨shortRow, by simp, by decide⟩).2⟩

/-- C7, as stated, fails: after a header of one field, a well-formed data row
of five fields does not yield an entry; the reader reports a wrong number of
fields and the run is aborted. -/
theorem parseTable_header_width_matters :
    (∀ r ∈ [row ["a", "b", "c", "d", "e"]], 5 ≤ r.fields.length)
    ∧ parseTable [row ["name"], row ["a", "b", "c", "d", "e"]]
        = .error (.fatal (.read .ErrFieldCount)) :=
  ⟨by decide, rfl⟩

/-- C7 (amended): for a header row followed by well-formed data rows that each
have at least five fields and as many fields as the header row, the parsed
entries are exactly the entries of the data rows, in source order; the header
yields no entry and its content is not looked at. -/
theorem parseTable_entries (header : RawRecord) (rows : List RawRecord)
    (h : ∀ r ∈ rows, 5 ≤ r.fields.length ∧ r.fields.length = header.fields.length
      ∧ r.syntaxError = false) :
    parseTable (header :: rows) = .ok (rows.map fun r => entryOf r.fields) := by
  have hfpr : (readRecord 0 header).2.2 = header.fields.length := by
    simp [readRecord]
  show readLoop (readRecord 0 header).2.2 rows [] = _
  rw [hfpr]
  cases rows with
  | nil => rfl
  | cons r rest =>
    have h0 : 0 < header.fields.length := by
      have := h r (by simp); omega
    rw [readLoop_ok (r :: rest) _ h0 h []]
    rfl

/-- Instance of C7 (amended): the header of the table and two rows. -/
theorem parseTable_entries_witness :
    parseTable [sampleHeader, sampleRow1, sampleRow2]
      = .ok [entryOf sampleRow1.fields, entryOf sampleRow2.fields] :=
  parseTable_entries sampleHeader [sampleRow1, sampleRow2] (by decide)

/-- C8: `VarName` of `123-456` is `123_456`, of `sha2-256` is `Sha2_256` (the
first part ends in the digit 2 and the second starts with the digit 2), and of
`aes-128` is `Aes128` (the first part ends in a letter). -/
theorem VarName_examples (U : UnicodeTables) :
    (named (goString "123-456")).VarName U = goString "123_456"
    ∧ (named (goString "sha2-256")).VarName U = goString "Sha2_256"
    ∧ Split 0x2D (goString "sha2-256") = [goString "sha2", goString "256"]
    ∧ (DecodeLastRuneInString (goString "sha2")).1 = 0x32 ∧ IsNumber U 0x32 = true
    ∧ (DecodeRuneInString (goString "256")).1 = 0x32
    ∧ (named (goString "aes-128")).VarName U = goString "Aes128"
    ∧ Split 0x2D (goString "aes-128") = [goString "aes", goString "128"]
    ∧ (DecodeLastRuneInString (goString "aes")).1 = 0x73 ∧ IsNumber U 0x73 = false :=
  ⟨rfl, rfl, by decide, by decide, rfl, by decide, rfl, by decide, by decide, rfl⟩


/-- C9, as stated, fails: after a header row of one field the two rows are
returned with a wrong number of fields, the run is aborted and no document is
written. -/
theorem main_round_trip_header_width_matters :
    (row ["name"]).fields.length = 1
    ∧ ∀ U, main U (envOf [row ["name"],
              row ["sha2-256", "multihash", "0x12", "permanent", "SHA-256"],
              row ["aes-128", "key", "0x60", "draft", ""]])
        = { outcome := .aborted (.fatal (.read .ErrFieldCount)), file := none } :=
  ⟨rfl, fun _ => rfl⟩

set_option maxRecDepth 100000 in
/-- C9 (amended): for a header row of five fields followed by the rows
`sha2-256, multihash, 0x12, permanent, SHA-256` and `aes-128, key, 0x60, draft`
with an empty description, the run writes the document with exactly two
declarations, in this order, each after its comment line; the second comment
has no description suffix and neither has the prefix `Deprecated: `. -/
theorem main_round_trip (U : UnicodeTables) (header : RawRecord)
    (h : header.fields.length = 5) :
    main U (envOf [header,
              row ["sha2-256", "multihash", "0x12", "permanent", "SHA-256"],
              row ["aes-128", "key", "0x60", "draft", ""]])
      = { outcome := .done,
          file := some (
            goString "\n// Code generated by gen.go; DO NOT EDIT.\n\npackage multicodec\n\nconst ("
            ++ goString "\n// Sha2_256 is a permanent code tagged \"multihash\" and described by: SHA-256.\n"
            ++ goString "Sha2_256 Code = 0x12 // sha2-256\n"
            ++ goString "\n// Aes128 is a draft code tagged \"key\".\n"
            ++ goString "Aes128 Code = 0x60 // aes-128\n"
            ++ goString ")\n") } := by
  have hfpr : (readRecord 0 header).2.2 = 5 := by
    simp [readRecord, h]
  have hp : parseTable [header, row ["sha2-256", "multihash", "0x12", "permanent", "SHA-256"],
      row ["aes-128", "key", "0x60", "draft", ""]]
      = .ok [entryOf (row ["sha2-256", "multihash", "0x12", "permanent", "SHA-256"]).fields,
          entryOf (row ["aes-128", "key", "0x60", "draft", ""]).fields] := by
    show readLoop (readRecord 0 header).2.2 _ [] = _
    rw [hfpr]
    rfl
  simp only [main, envOf, hp, if_true]
  rfl

/-- Instance of C9 (amended) with the header of the multicodec table. -/
theorem main_round_trip_witness :
    (main sampleTables (envOf [sampleHeader,
              row ["sha2-256", "multihash", "0x12", "permanent", "SHA-256"],
              row ["aes-128", "key", "0x60", "draft", ""]])).outcome = .done :=
  congrArg Result.outcome (main_round_trip sampleTables sampleHeader (by decide))

/-- C10, as stated, fails: the name made of the single byte `0xFF` is not
empty and has no hyphen, its first character reads as U+FFFD, which
upper-casing leaves unchanged, yet `VarName` returns the three bytes of
U+FFFD and not the name. -/
theorem VarName_malformed_first_byte :
    ([0xFF] : GoString) ≠ [] ∧ 0x2D ∉ ([0xFF] : GoString)
    ∧ DecodeRuneInString [0xFF] = (RuneError, 1)
    ∧ (∀ U, ToUpper U RuneError = RuneError)
    ∧ (∀ U, (named [0xFF]).VarName U = [0xEF, 0xBF, 0xBD])
    ∧ (∀ U, (named [0xFF]).VarName U ≠ [0xFF]) := by
  have hup : ∀ U, ToUpper U RuneError = RuneError := fun U => by
    simp [ToUpper, RuneError, U.upper_RuneError]
  have hv : ∀ U, (named [0xFF]).VarName U = [0xEF, 0xBF, 0xBD] := fun U => by
    show encodeRune (ToUpper U RuneError) ++ [] = _
    rw [hup]; rfl
  exact ⟨by decide, by decide, by decide, hup, hv, fun U => by rw [hv]; decide⟩

/-- C10 (amended): for a name without hyphen that begins with a well-formed
character which upper-casing leaves unchanged, `VarName` returns the name
unchanged. -/
theorem VarName_capitalized_single_part (U : UnicodeTables) (r : Nat) (rest : GoString)
    (hv : ValidRune r) (hh : 0x2D ∉ encodeRune r ++ rest) (hup : ToUpper U r = r) :
    (named (encodeRune r ++ rest)).VarName U = encodeRune r ++ rest := by
  rw [varName_eq_loopOutput]
  show loopOutput U 0 (Split 0x2D (encodeRune r ++ rest)) = _
  rw [split_no_sep _ _ hh]
  simp only [loopOutput, isNumber_zero, Bool.false_and, Bool.false_eq_true, if_false,
    List.nil_append, List.append_nil, decode_encode r hv.1 hv.2 rest, hup, List.drop_left]

/-- Instance of C10 at the name `Foo`. -/
theorem VarName_capitalized_single_part_witness :
    (named (goString "Foo")).VarName sampleTables = goString "Foo" :=
  VarName_capitalized_single_part sampleTables 0x46 (goString "oo") (by decide) (by decide)
    (by decide)


/-- C11, as stated, fails: the name `123-456` is made of two non-empty parts
of decimal digits, and `VarName` returns `123_456`, which begins with a
digit. -/
theorem VarName_leading_digit :
    PartsOf isAlnum (goString "123-456")
    ∧ (∀ U, (named (goString "123-456")).VarName U = goString "123_456")
    ∧ isDecimalDigit ((goString "123_456").headD 0) = true :=
  ⟨by decide, fun _ => rfl, by decide⟩

/-- C11 (amended): for every name made of non-empty parts of ASCII letters and
decimal digits, separated by single hyphens, `VarName` returns a non-empty
string that consists only of ASCII letters, decimal digits and underscores and
contains no hyphen; it begins with a digit exactly when the name does, and
with a letter when the name does. -/
theorem VarName_identifier (U : UnicodeTables) (c : tableEntry)
    (h : PartsOf isAlnum c.Name) :
    c.VarName U ≠ []
    ∧ (∀ x ∈ c.VarName U, isIdentByte x = true)
    ∧ 0x2D ∉ c.VarName U
    ∧ isDecimalDigit ((c.VarName U).headD 0) = isDecimalDigit (c.Name.headD 0)
    ∧ (isAsciiLetter (c.Name.headD 0) = true
        → isAsciiLetter ((c.VarName U).headD 0) = true) := by
  have hid : ∀ x ∈ c.VarName U, isIdentByte x = true := by
    rw [varName_eq_loopOutput]
    exact loopOutput_ident U _ h 0
  obtain ⟨p, ps, hsplit⟩ := List.exists_cons_of_ne_nil (split_ne_nil 0x2D c.Name)
  obtain ⟨hp, hal⟩ := h p (by rw [hsplit]; simp)
  obtain ⟨b, t, rfl⟩ := List.exists_cons_of_ne_nil hp
  have hb := hal b (by simp)
  have hout : c.VarName U = (if 0x61 ≤ b ∧ b ≤ 0x7A then b - 0x20 else b)
      :: (t ++ loopOutput U (DecodeLastRuneInString (b :: t)).1 ps) := by
    rw [varName_eq_loopOutput, hsplit, loopOutput_cons_ascii U 0 b t ps (isAlnum_lt b hb)]
    simp [isNumber_zero]
  have hhead := head_of_split c.Name b t ps hsplit
  refine ⟨by rw [hout]; simp, hid, ?_, ?_, ?_⟩
  · intro hm
    have := hid _ hm
    revert this
    decide
  · rw [hout, hhead]
    exact isDecimalDigit_upper b
  · rw [hout, hhead]
    exact isAsciiLetter_upper b

/-- Instance of C11 (amended) at the name `sha2-256`. -/
theorem VarName_identifier_witness :
    PartsOf isAlnum (named (goString "sha2-256")).Name
    ∧ ∀ x ∈ (named (goString "sha2-256")).VarName sampleTables, isIdentByte x = true :=
  ⟨by decide,
    (VarName_identifier sampleTables (named (goString "sha2-256")) (by decide)).2.1⟩

/-- C12: for every name made of non-empty runs of decimal digits separated by
single hyphens, `VarName` returns the name with every hyphen replaced by an
underscore; hence two such names with the same derived name are equal. -/
theorem VarName_digit_runs (U : UnicodeTables) (c : tableEntry)
    (h : PartsOf isDecimalDigit c.Name) :
    c.VarName U = c.Name.map hyphenToUnderscore
    ∧ ∀ d : tableEntry, PartsOf isDecimalDigit d.Name → d.VarName U = c.VarName U
        → d.Name = c.Name := by
  have key : ∀ e : tableEntry, PartsOf isDecimalDigit e.Name →
      e.VarName U = e.Name.map hyphenToUnderscore ∧ 0x5F ∉ e.Name := by
    intro e he
    constructor
    · rw [varName_eq_loopOutput,
        loopOutput_eq_joinParts U _ (fun p hp => (he p hp).1), joinParts_digits U _ he,
        ← map_joinWith _ (split_no_sep_mem 0x2D e.Name), joinWith_split]
    · intro hm
      rw [← joinWith_split 0x2D e.Name] at hm
      rcases mem_joinWith _ _ _ hm with hx | ⟨p, hp, hx⟩
      · exact absurd hx (by decide)
      · have := (he p hp).2 _ hx
        revert this
        decide
  refine ⟨(key c h).1, fun d hd heq => ?_⟩
  rw [(key d hd).1, (key c h).1] at heq
  exact map_hyphenToUnderscore_inj _ _ (key d hd).2 (key c h).2 heq

/-- Instance of C12 at the names `12-3` and `1-23`. -/
theorem VarName_digit_runs_witness :
    PartsOf isDecimalDigit (named (goString "12-3")).Name
    ∧ (named (goString "12-3")).VarName sampleTables = goString "12_3"
    ∧ (named (goString "1-23")).VarName sampleTables = goString "1_23" :=
  ⟨by decide,
    (VarName_digit_runs sampleTables (named (goString "12-3")) (by decide)).1.trans
      (by decide),
    (VarName_digit_runs sampleTables (named (goString "1-23")) (by decide)).1.trans
      (by decide)⟩

/-- C13: for every name the run of `VarName` with checked slices does not
panic and returns the string that `VarName` returns; the width that
`utf8.DecodeRuneInString` returns never exceeds the length of the part, so
the slice `part[firstSize:]` is within bounds, also for an empty part. -/
theorem VarName_no_fault (U : UnicodeTables) :
    (∀ c : tableEntry, c.VarName? U = some (c.VarName U))
    ∧ (∀ part : GoString, (DecodeRuneInString part).2 ≤ part.length)
    ∧ (∀ part : GoString, sliceFrom part (DecodeRuneInString part).2
        = some (part.drop (DecodeRuneInString part).2))
    ∧ sliceFrom [] (DecodeRuneInString []).2 = some [] := by
  refine ⟨fun c => ?_, fun part => (decode_size part).1, fun part => ?_, rfl⟩
  · simp only [tableEntry.VarName?, varNameLoop?_eq, Option.map_some', tableEntry.VarName]
  · simp only [sliceFrom, (decode_size part).1, if_true]

/-- C14: an empty part is not skipped.  For every name, `VarName` is the
concatenation of the pieces of its parts, where the piece of an empty part is
exactly U+FFFD, and an empty part takes no underscore before or after it;
the derived name of the empty name is U+FFFD, of `a--b` it is `A`, U+FFFD,
`B`, and of `1--2` it is `1`, U+FFFD, `2`. -/
theorem VarName_empty_parts (U : UnicodeTables) :
    (∀ c : tableEntry, c.VarName U = joinPieces U (Split 0x2D c.Name))
    ∧ piece U [] = encodeRune RuneError
    ∧ (∀ q : GoString, needsUnderscore (IsNumber U) [] q = false)
    ∧ (∀ p : GoString, needsUnderscore (IsNumber U) p [] = false)
    ∧ (named []).VarName U = [0xEF, 0xBF, 0xBD]
    ∧ (named (goString "a--b")).VarName U
        = goString "A" ++ [0xEF, 0xBF, 0xBD] ++ goString "B"
    ∧ (named (goString "1--2")).VarName U
        = goString "1" ++ [0xEF, 0xBF, 0xBD] ++ goString "2" := by
  have key : ∀ c : tableEntry, c.VarName U = joinPieces U (Split 0x2D c.Name) :=
    fun c => by rw [varName_eq_loopOutput, loopOutput_eq_joinPieces]
  refine ⟨key, rfl, fun q => rfl, fun p => ?_, (key _).trans rfl, (key _).trans rfl,
    (key _).trans rfl⟩
  cases p <;> rfl

/-- C15: when upper-casing is idempotent and maps no other rune to the hyphen,
the derived name of every name contains no hyphen, and deriving again from an
entry whose name is the derived name returns it unchanged. -/
theorem VarName_idempotent (U : UnicodeTables)
    (h1 : ∀ r, ToUpper U (ToUpper U r) = ToUpper U r)
    (h2 : ∀ r, ToUpper U r = 0x2D → r = 0x2D) (c : tableEntry) :
    0x2D ∉ c.VarName U
    ∧ ∀ d : tableEntry, d.Name = c.VarName U → d.VarName U = c.VarName U := by
  obtain ⟨hno, hagain⟩ := varName_twice U h1 h2 c
  refine ⟨hno, fun d hd => ?_⟩
  have e : d.VarName U = (named d.Name).VarName U := rfl
  rw [e, hd]
  exact hagain

/-- Instance of C15 at the name `sha2-256`, for tables in which upper-casing
above ASCII changes nothing. -/
theorem VarName_idempotent_witness :
    0x2D ∉ (named (goString "sha2-256")).VarName sampleTables
    ∧ (named (goString "Sha2_256")).VarName sampleTables = goString "Sha2_256" :=
  have hs := VarName_idempotent sampleTables sampleTables_upper_idem
    sampleTables_upper_hyphen (named (goString "sha2-256"))
  ⟨hs.1, hs.2 (named (goString "Sha2_256")) (by decide)⟩

/-- C16: the names `a-1` and `a1` differ, both are made of lower-case ASCII
letters and decimal digits in non-empty parts, and both derive `A1`. -/
theorem VarName_not_injective (U : UnicodeTables) :
    goString "a-1" ≠ goString "a1"
    ∧ PartsOf isLowerAlnum (goString "a-1") ∧ PartsOf isLowerAlnum (goString "a1")
    ∧ (named (goString "a-1")).VarName U = goString "A1"
    ∧ (named (goString "a1")).VarName U = goString "A1" :=
  ⟨by decide, by decide, by decide, rfl, rfl⟩

end GoMulticodec
